import Mathlib

/-!
Verification development for the robotcode core: a shallow embedding, in Lean,
of the JSON-RPC framing/dispatch layer (`robotcode/server/jsonrpc2/protocol.py`),
the text-document store (`robotcode/language_server/common/text_document.py`) and
the diagnostics scheduler (`robotcode/language_server/common/parts/diagnostics.py`),
together with theorems settling the frozen specification claims.

Texts and wire bytes are modelled as `List Char` (all inputs in scope are
single-byte characters, and the implementation decodes with a charset that is
modelled as the identity).  Machine integers are `Int`/`Nat`; Python `None` is
`Option`.  Stateful methods become pure state-transition functions; a raised
Python exception becomes an explicit error flag or an `Except` value that also
carries the (already mutated) object state, mirroring in-place mutation.
-/

set_option autoImplicit false

namespace RobotCode

/-! ### Python `str.splitlines(True)`

`TextDocument.apply_incremental_change` splits the buffer with
`self._text.splitlines(True)` (keepends).  Python splits at `\r\n` pairs and at
each single character of its line-boundary set (`\n`, `\r`, `\v`, `\f`,
`\x1c`, `\x1d`, `\x1e`, `\x85`, ` `, ` `). -/

/-- The single characters Python `str.splitlines` treats as a line boundary. -/
def lineBreakChars : List Char :=
  ['\n', '\r', '\x0b', '\x0c', '\x1c', '\x1d', '\x1e', '\x85', '\u2028', '\u2029']

/-- Whether Python `str.splitlines` breaks a line at `c`. -/
def isLineBreak (c : Char) : Bool := lineBreakChars.contains c

/-- Python `str.splitlines(keepends=True)`: split into physical lines, each
retaining its terminator; `\r\n` counts as a single terminator.  `acc` is the
reversed run of characters of the line currently being scanned. -/
def splitlines : List Char → List Char → List (List Char)
  | [], acc => if acc.isEmpty then [] else [acc.reverse]
  | '\r' :: '\n' :: rest, acc => (acc.reverse ++ ['\r', '\n']) :: splitlines rest []
  | c :: rest, acc =>
      if isLineBreak c then (acc.reverse ++ [c]) :: splitlines rest []
      else splitlines rest (c :: acc)

/-- Joining the kept-ends lines reconstructs the original text
(generalised over the scan accumulator). -/
theorem splitlines_join (s acc : List Char) :
    (splitlines s acc).flatten = acc.reverse ++ s := by
  induction s, acc using splitlines.induct with
  | case1 acc h => simp [splitlines, h, List.isEmpty_iff.mp h]
  | case2 acc h => simp [splitlines, h]
  | case3 rest acc ih =>
      simp [splitlines, List.append_assoc]
      simpa using ih
  | case4 c rest acc hnp hbr ih =>
      rw [splitlines.eq_3 acc c rest hnp, if_pos hbr]
      simp [List.append_assoc]
      simpa using ih
  | case5 c rest acc hnp hbr ih =>
      rw [splitlines.eq_3 acc c rest hnp, if_neg hbr]
      simpa [List.append_assoc] using ih

/-! ### Positions, ranges, and the incremental-change algorithm -/

/-- `lsp_types.Position` (line/character); LSP positions are non-negative. -/
structure Position where
  line : Nat
  character : Nat
  deriving Repr, DecidableEq

/-- `Position.__gt__`: strict lexicographic order on (line, character). -/
def posGt (a b : Position) : Bool :=
  if a.line > b.line then true
  else if a.line = b.line then a.character > b.character
  else false

/-- `lsp_types.Range`; iterating it yields `(start, end)`. -/
structure Range where
  start : Position
  «end» : Position
  deriving Repr, DecidableEq

/-- The mutable fields of `TextDocument` that the incremental-change claims
are about: the text buffer and the version.  (`_lines` is a derived cache that
is reset to `None` on every mutation path, and the memoization cache is
cleared; both are recomputed from `text`, so they carry no extra state here.) -/
structure DocState where
  text : List Char
  version : Option Int
  deriving Repr, DecidableEq

/-- The body of the `for i, line in enumerate(lines)` rebuild loop of
`apply_incremental_change`, with `i` the index of the head of `lines`:
lines outside `[startLine, endLine]` are copied; the start line contributes
its prefix up to `startCol` followed by the new text; the end line
contributes its suffix from `endCol`. -/
def rebuildLines (i : Nat) (lines : List (List Char))
    (startLine startCol endLine endCol : Nat) (t : List Char) : List Char :=
  match lines with
  | [] => []
  | l :: rest =>
      (if i < startLine ∨ endLine < i then l
       else (if i = startLine then l.take startCol ++ t else []) ++
            (if i = endLine then l.drop endCol else [])) ++
      rebuildLines (i + 1) rest startLine startCol endLine endCol t

/-- `TextDocument.apply_incremental_change(version, range, text)`.

Returns `(raised, newState)` where `raised` reports the `InvalidRangeError`.
Mirrors the source order: the version is assigned first; then the
`range.start > range.end` check raises (leaving the already-assigned version in
place, as the Python method mutates `self._version` before the check); then
either the pure-append branch (`start_line == len(lines)`) or the rebuild loop
runs.  The `finally` block only resets the `_lines` cache and clears the
memoization cache, which are not part of `DocState`. -/
def applyIncrementalChange (doc : DocState) (version : Option Int)
    (r : Range) (t : List Char) : Bool × DocState :=
  let ver' : Option Int := match version with
    | some v => some v
    | none => doc.version
  if posGt r.start r.«end» then
    (true, { doc with version := ver' })
  else
    let lines := splitlines doc.text []
    if r.start.line = lines.length then
      (false, { text := doc.text ++ t, version := ver' })
    else
      (false, { text := rebuildLines 0 lines r.start.line r.start.character
                          r.«end».line r.«end».character t,
                version := ver' })

/-- The splice as the specification words it: every line before the span,
then the prefix of the start line up to `start.character`, then the
replacement text, then the suffix of the end line from `end.character`
onward, then every line after the span (a line index that does not exist
contributes nothing). -/
def specSplice (lines : List (List Char))
    (startLine startCol endLine endCol : Nat) (t : List Char) : List Char :=
  (lines.take startLine).flatten ++
  ((lines.get? startLine).getD []).take startCol ++ t ++
  ((lines.get? endLine).getD []).drop endCol ++
  (lines.drop (endLine + 1)).flatten

/-- Shifting the loop index and both line bounds together leaves the rebuild
unchanged. -/
theorem rebuildLines_shift (lines : List (List Char)) :
    ∀ (i sL sC eL eC : Nat) (t : List Char),
      rebuildLines (i + 1) lines (sL + 1) sC (eL + 1) eC t =
      rebuildLines i lines sL sC eL eC t := by
  induction lines with
  | nil => intro i sL sC eL eC t; simp [rebuildLines]
  | cons l rest ih =>
      intro i sL sC eL eC t
      simp only [rebuildLines, ih]
      congr 1
      have h1 : (i + 1 < sL + 1 ∨ eL + 1 < i + 1) ↔ (i < sL ∨ eL < i) := by omega
      have h2 : (i + 1 = sL + 1) ↔ (i = sL) := by omega
      have h3 : (i + 1 = eL + 1) ↔ (i = eL) := by omega
      by_cases hc : i < sL ∨ eL < i
      · rw [if_pos (h1.mpr hc), if_pos hc]
      · rw [if_neg (h1.not.mpr hc), if_neg hc]
        by_cases hs : i = sL
        · rw [if_pos (h2.mpr hs), if_pos hs]
          by_cases he : i = eL
          · rw [if_pos (h3.mpr he), if_pos he]
          · rw [if_neg (h3.not.mpr he), if_neg he]
        · rw [if_neg (h2.not.mpr hs), if_neg hs]
          by_cases he : i = eL
          · rw [if_pos (h3.mpr he), if_pos he]
          · rw [if_neg (h3.not.mpr he), if_neg he]

/-- Once the loop index has passed the start line, the rebuild only emits the
end-line suffix and the lines after the span. -/
theorem rebuildLines_sfx (lines : List (List Char)) :
    ∀ (i sL sC eL eC : Nat) (t : List Char), sL < i →
      rebuildLines i lines sL sC eL eC t =
      (if i ≤ eL then ((lines.get? (eL - i)).getD []).drop eC ++
                      (lines.drop (eL - i + 1)).flatten
       else lines.flatten) := by
  induction lines with
  | nil => intro i sL sC eL eC t hi; simp [rebuildLines]
  | cons l rest ih =>
      intro i sL sC eL eC t hi
      simp only [rebuildLines]
      rcases Nat.lt_trichotomy i eL with hlt | heq | hgt
      · rw [if_neg (show ¬ (i < sL ∨ eL < i) by omega),
          if_neg (show ¬ i = sL by omega), if_neg (show ¬ i = eL by omega),
          ih (i + 1) sL sC eL eC t (by omega),
          if_pos (show i + 1 ≤ eL by omega), if_pos (show i ≤ eL by omega)]
        have h1 : eL - i = (eL - (i + 1)) + 1 := by omega
        simp [h1]
      · subst heq
        rw [if_neg (show ¬ (i < sL ∨ i < i) by omega),
          if_neg (show ¬ i = sL by omega), if_pos rfl,
          ih (i + 1) sL sC i eC t (by omega),
          if_neg (show ¬ i + 1 ≤ i by omega), if_pos (le_refl i)]
        simp
      · rw [if_pos (Or.inr hgt), ih (i + 1) sL sC eL eC t (by omega),
          if_neg (show ¬ i + 1 ≤ eL by omega), if_neg (show ¬ i ≤ eL by omega)]
        simp

/-- The rebuild loop, started at index 0 with the start line in range,
computes exactly the specification splice. -/
theorem rebuildLines_eq_specSplice (lines : List (List Char)) :
    ∀ (sL sC eL eC : Nat) (t : List Char), sL ≤ eL → sL < lines.length →
      rebuildLines 0 lines sL sC eL eC t = specSplice lines sL sC eL eC t := by
  induction lines with
  | nil => intro sL sC eL eC t _ h; simp at h
  | cons l rest ih =>
      intro sL sC eL eC t hse hlen
      match sL, hse with
      | 0, _ =>
          rcases Nat.eq_zero_or_pos eL with he | he
          · subst he
            simp only [rebuildLines, specSplice]
            rw [rebuildLines_sfx rest 1 0 sC 0 eC t (by omega),
              if_neg (show ¬ 1 ≤ 0 by omega)]
            simp
          · obtain ⟨e, rfl⟩ : ∃ e, eL = e + 1 := ⟨eL - 1, by omega⟩
            simp only [rebuildLines, specSplice]
            rw [rebuildLines_sfx rest 1 0 sC (e + 1) eC t (by omega),
              if_pos (show 1 ≤ e + 1 by omega)]
            simp [Nat.add_sub_cancel]
      | s + 1, hse =>
          obtain ⟨e, rfl⟩ : ∃ e, eL = e + 1 := ⟨eL - 1, by omega⟩
          simp only [rebuildLines, specSplice]
          rw [if_pos (show 0 < s + 1 ∨ e + 1 < 0 from Or.inl (by omega)),
            rebuildLines_shift rest 0 s sC e eC t,
            ih s sC e eC t (by omega) (by simpa using hlen)]
          simp [specSplice]

/-- Unpacking `Position.__gt__ = false`: lexicographic `start ≤ end`. -/
theorem posGt_eq_false_iff (a b : Position) :
    posGt a b = false ↔
      (a.line < b.line ∨ (a.line = b.line ∧ a.character ≤ b.character)) := by
  unfold posGt
  split
  · constructor
    · intro h; cases h
    · intro h; omega
  · split
    · constructor
      · intro h
        simp only [decide_eq_false_iff_not, Nat.not_lt] at h
        omega
      · intro h
        simp only [decide_eq_false_iff_not, Nat.not_lt]
        omega
    · constructor
      · intro _; omega
      · intro _; rfl

/-- The concrete buffer of the specification's worked example. -/
def exampleDoc : DocState := { text := "abc\ndef\n".data, version := none }

/-- The worked example's edit range: (line 1, col 0)–(line 1, col 0). -/
def exampleRange : Range :=
  { start := { line := 1, character := 0 }, «end» := { line := 1, character := 0 } }

/-- C1: for `start ≤ end` with the start line addressing an existing line or the
line one past the end, `apply_incremental_change` succeeds and rebuilds the
buffer exactly as the splice specification describes (lines outside the span
copied, the span replaced by start-line prefix, new text, end-line suffix;
`start.line = number of lines` being a pure append); in particular buffer
`"abc\ndef\n"` with range (1,0)-(1,0) and text `"X"` yields `"abc\nXdef\n"`. -/
theorem apply_incremental_change_splices (doc : DocState) (version : Option Int)
    (r : Range) (t : List Char)
    (hle : posGt r.start r.«end» = false)
    (hsl : r.start.line ≤ (splitlines doc.text []).length) :
    (applyIncrementalChange doc version r t).1 = false ∧
    (applyIncrementalChange doc version r t).2.text =
      specSplice (splitlines doc.text []) r.start.line r.start.character
        r.«end».line r.«end».character t ∧
    (applyIncrementalChange exampleDoc none exampleRange ['X']).2.text =
      "abc\nXdef\n".data := by
  refine ⟨?_, ?_, by decide⟩
  · simp only [applyIncrementalChange, hle, Bool.false_eq_true, if_false]
    split <;> rfl
  · have hse : r.start.line ≤ r.«end».line := by
      rcases (posGt_eq_false_iff _ _).mp hle with h | h
      · omega
      · omega
    rcases Nat.lt_or_ge r.start.line (splitlines doc.text []).length with hlt | hge
    · have hne : r.start.line ≠ (splitlines doc.text []).length := by omega
      simp only [applyIncrementalChange, hle, Bool.false_eq_true, if_false, hne]
      simpa using rebuildLines_eq_specSplice (splitlines doc.text [])
        r.start.line r.start.character r.«end».line r.«end».character t hse hlt
    · have heq : r.start.line = (splitlines doc.text []).length := by omega
      simp only [applyIncrementalChange, hle, Bool.false_eq_true, if_false, heq, if_pos rfl]
      have h1 : (splitlines doc.text []).take (splitlines doc.text []).length =
          splitlines doc.text [] := List.take_length _
      have h2 : (splitlines doc.text []).get? (splitlines doc.text []).length = none :=
        List.get?_eq_none.mpr (le_refl _)
      have h3 : (splitlines doc.text []).get? r.«end».line = none :=
        List.get?_eq_none.mpr (by omega)
      have h4 : (splitlines doc.text []).drop (r.«end».line + 1) = [] :=
        List.drop_eq_nil_of_le (by omega)
      simp only [specSplice, heq, h1, h2, h3, h4, Option.getD_none, List.take_nil,
        List.drop_nil, List.flatten_nil, List.append_nil, List.nil_append,
        List.take, List.drop]
      have := splitlines_join doc.text []
      simp only [List.reverse_nil, List.nil_append] at this
      rw [this]
      simp

/-- Witness for `apply_incremental_change_splices` at the worked example. -/
theorem apply_incremental_change_splices_witness :
    posGt exampleRange.start exampleRange.«end» = false ∧
    exampleRange.start.line ≤ (splitlines exampleDoc.text []).length ∧
    ((applyIncrementalChange exampleDoc (some 2) exampleRange ['X']).1 = false ∧
     (applyIncrementalChange exampleDoc (some 2) exampleRange ['X']).2.text =
       specSplice (splitlines exampleDoc.text []) exampleRange.start.line
         exampleRange.start.character exampleRange.«end».line
         exampleRange.«end».character ['X'] ∧
     (applyIncrementalChange exampleDoc none exampleRange ['X']).2.text =
       "abc\nXdef\n".data) :=
  ⟨by decide, by decide,
   apply_incremental_change_splices exampleDoc (some 2) exampleRange ['X']
     (by decide) (by decide)⟩

/-- C6 counterexample state: a document at version 1. -/
def c6Doc : DocState := { text := "ab".data, version := some 1 }

/-- C6 counterexample range: start (0,1) strictly after end (0,0). -/
def c6Range : Range :=
  { start := { line := 0, character := 1 }, «end» := { line := 0, character := 0 } }

/-- C6 is false as stated: an invalid-range edit raises, and the text buffer is
untouched, but the document is not "left exactly as it was": the version
assignment precedes the range check in `apply_incremental_change`, so the
version mutation survives the failed call (here: 1 becomes 2). -/
theorem invalid_range_version_mutates :
    (applyIncrementalChange c6Doc (some 2) c6Range ['X']).1 = true ∧
    (applyIncrementalChange c6Doc (some 2) c6Range ['X']).2.text = c6Doc.text ∧
    (applyIncrementalChange c6Doc (some 2) c6Range ['X']).2.version = some 2 ∧
    (applyIncrementalChange c6Doc (some 2) c6Range ['X']).2 ≠ c6Doc := by
  decide

/-- C6 as amended: for `start > end` the call raises `InvalidRangeError` and
leaves the text buffer untouched, but the version assignment (when a version
was supplied) has already happened and is not rolled back. -/
theorem invalid_range_aborts_text_only (doc : DocState) (version : Option Int)
    (r : Range) (t : List Char) (hgt : posGt r.start r.«end» = true) :
    (applyIncrementalChange doc version r t).1 = true ∧
    (applyIncrementalChange doc version r t).2.text = doc.text ∧
    (applyIncrementalChange doc version r t).2.version =
      (match version with | some v => some v | none => doc.version) := by
  simp [applyIncrementalChange, hgt]

/-- Witness for `invalid_range_aborts_text_only`. -/
theorem invalid_range_aborts_text_only_witness :
    posGt c6Range.start c6Range.«end» = true ∧
    ((applyIncrementalChange c6Doc (some 7) c6Range ['Y']).1 = true ∧
     (applyIncrementalChange c6Doc (some 7) c6Range ['Y']).2.text = c6Doc.text ∧
     (applyIncrementalChange c6Doc (some 7) c6Range ['Y']).2.version =
       (match (some 7 : Option Int) with | some v => some v | none => c6Doc.version)) :=
  ⟨by decide, invalid_range_aborts_text_only c6Doc (some 7) c6Range ['Y'] (by decide)⟩

/-! ### `TextDocument.get_cache` — per-consumer memoization (C10)

`get_cache` keeps one `CacheEntry` per consumer reference; the entry is created
(with `data = None`) under the document lock on first request, and the
computation runs under the entry lock only while `e.data is None`; its result
is assigned to `e.data`.  The concurrency is cooperative (a single awaiting
caller at a time in this model); the state transition below is the body of one
`get_cache` call. -/

/-- One consumer's cache slot as seen by `get_cache`: `none` = no `CacheEntry`
yet; `some d` = an entry whose `data` field is `d`. -/
structure CacheState (α : Type) where
  slot : Option (Option α)
  invocations : Nat

/-- One `get_cache` call.  `computeSeq n` is the value returned by the `n`-th
invocation of the cached computation (`await entry(self, ...)`); the
invocation counter records how many times the computation has run. -/
def getCache {α : Type} (computeSeq : Nat → Option α) (st : CacheState α) :
    Option α × CacheState α :=
  let entryData : Option α := match st.slot with
    | none => none
    | some d => d
  match entryData with
  | some v => (some v, { st with slot := some (some v) })
  | none =>
      let r := computeSeq st.invocations
      (r, { slot := some r, invocations := st.invocations + 1 })

/-- `k` successive `get_cache` calls. -/
def getCacheIter {α : Type} (computeSeq : Nat → Option α) :
    Nat → CacheState α → CacheState α
  | 0, st => st
  | k + 1, st => getCacheIter computeSeq k (getCache computeSeq st).2

/-- C10: the memoization cache only ever stores a non-`None` result.  (a) If
the computation keeps returning `None`, every one of `k` successive calls
re-invokes it and the slot data stays `None`; (b) a slot holding `some v`
short-circuits with no invocation; (c) once an invocation returns `some v`
the slot holds it and the next call is a pure cache hit. -/
theorem get_cache_skips_none {α : Type} (computeSeq : Nat → Option α)
    (st : CacheState α) (k : Nat) (v : α)
    (hnone : ∀ n, computeSeq n = none) :
    ((getCacheIter computeSeq k { slot := none, invocations := 0 }).invocations = k ∧
     (getCacheIter computeSeq k { slot := none, invocations := 0 }).slot ≠ some (some v)) ∧
    (st.slot = some (some v) →
      getCache computeSeq st = (some v, { st with slot := some (some v) })) ∧
    (∀ (cs : Nat → Option α), st.slot = some none → cs st.invocations = some v →
      (getCache cs st).2.slot = some (some v) ∧
      (getCache cs (getCache cs st).2).1 = some v ∧
      (getCache cs (getCache cs st).2).2.invocations = (getCache cs st).2.invocations) := by
  refine ⟨?_, ?_, ?_⟩
  · have key : ∀ (k : Nat) (m : Nat),
        (getCacheIter computeSeq k { slot := some none, invocations := m }).invocations
            = m + k ∧
        (getCacheIter computeSeq k { slot := some none, invocations := m }).slot
            = some none ∨ k = 0 ∧ m = 0 := by
      intro k
      induction k with
      | zero => intro m; simp [getCacheIter]
      | succ k ih =>
          intro m
          left
          have h1 : getCache computeSeq { slot := some none, invocations := m } =
              (none, { slot := some none, invocations := m + 1 }) := by
            simp [getCache, hnone]
          rcases ih (m + 1) with ⟨ha, hb⟩ | ⟨hk, _⟩
          · constructor
            · simp only [getCacheIter, h1]
              rw [ha]; omega
            · simp only [getCacheIter, h1, hb]
          · subst hk
            constructor
            · simp only [getCacheIter, h1, getCacheIter]
            · simp only [getCacheIter, h1, getCacheIter]
    cases k with
    | zero => simp [getCacheIter]
    | succ k =>
        have h1 : getCache computeSeq { slot := none, invocations := 0 } =
            (none, { slot := some none, invocations := 1 }) := by
          simp [getCache, hnone]
        rcases key k 1 with ⟨ha, hb⟩ | ⟨hk, hm⟩
        · constructor
          · simp only [getCacheIter, h1]
            rw [ha]; omega
          · simp only [getCacheIter, h1, hb]
            intro h; cases h
        · cases hm
  · intro hv
    have : st = { st with slot := some (some v) } := by
      cases st; simp_all
    rw [← this]
    simp [getCache, hv]
    exact this.symm ▸ rfl
  · intro cs hslot hcs
    refine ⟨by simp [getCache, hslot, hcs], ?_, ?_⟩
    · simp [getCache, hslot, hcs]
    · simp [getCache, hslot, hcs]

/-- Witness for `get_cache_skips_none` at `k = 3` with an always-`none`
computation. -/
theorem get_cache_skips_none_witness :
    (getCacheIter (fun _ => (none : Option Nat)) 3
        { slot := none, invocations := 0 }).invocations = 3 ∧
    getCache (fun _ => (none : Option Nat)) { slot := some (some 5), invocations := 2 } =
      (some 5, { slot := some (some 5), invocations := 2 }) ∧
    (getCache (fun _ => (some 5 : Option Nat)) { slot := some none, invocations := 2 }).2.slot =
      some (some 5) := by
  have h := get_cache_skips_none (α := Nat) (fun _ => none)
    { slot := some (some 5), invocations := 2 } 3 5 (fun _ => rfl)
  have h2 := get_cache_skips_none (α := Nat) (fun _ => none)
    { slot := some none, invocations := 2 } 3 5 (fun _ => rfl)
  exact ⟨h.1.1, h.2.1 rfl, (h2.2.2 (fun _ => some 5) rfl rfl).1⟩

/-! ### Diagnostics scheduler — `DiagnosticsProtocolPart._text_document_diagnostic`

The handler reads the document's `DiagnosticsData` (creating and installing a
fresh one via `set_data` if absent), decides staleness
(`data.force or document.version != data.version or data.task is None`), and
on a rerun: saves the old task, installs a brand-new `DiagnosticsData` via
`set_data`, posts a thread-safe cancel for the old task if it is not done,
records the document version in the new record and spawns the collection task
on the diagnostics loop.  Finally it answers `unchanged` when the caller's
`previous_result_id` equals the current record's id, else a full report.

`uuid.uuid4()` run ids and task handles are modelled as fresh naturals drawn
from a counter (uuid collisions are assumed not to occur); diagnostics and
collector keys are opaque naturals. -/

/-- `DiagnosticsData`: run id, entries map, captured version, task handle,
force flag. -/
structure DiagData where
  id : Nat
  entries : List (Nat × Option (List Nat))
  version : Option Int
  task : Option Nat
  force : Bool
  deriving Repr, DecidableEq

/-- Observable actions of one `_text_document_diagnostic` call, in order. -/
inductive DiagEvent
  | installed (id : Nat)
  | cancelPosted (task : Nat)
  | taskCreated (task : Nat)
  deriving Repr, DecidableEq

/-- `DocumentDiagnosticReport`: the unchanged short-circuit or a full report. -/
inductive DiagReport
  | unchanged (resultId : Nat)
  | full (items : List Nat) (resultId : Nat)
  deriving Repr, DecidableEq

/-- `list(itertools.chain(*(e for e in data.entries.values() if e is not None)))`. -/
def flattenEntries (entries : List (Nat × Option (List Nat))) : List Nat :=
  (entries.filterMap (fun e => e.2)).flatten

/-- One `textDocument/diagnostic` request against one document.
`taskDone t` models `task.done()`; `stored` is the document's current
`DiagnosticsData` (or `none` before the first request); `prev` is the
caller's `previous_result_id`; `ctr` feeds fresh ids.  Returns
(response, data now stored on the document, events in program order,
next counter). -/
def textDocumentDiagnostic (taskDone : Nat → Bool) (docVersion : Option Int)
    (stored : Option DiagData) (prev : Option Nat) (ctr : Nat) :
    DiagReport × DiagData × List DiagEvent × Nat :=
  let p0 : DiagData × List DiagEvent × Nat :=
    match stored with
    | some d => (d, [], ctr)
    | none => ({ id := ctr, entries := [], version := none, task := none, force := false },
               [DiagEvent.installed ctr], ctr + 1)
  let data0 := p0.1
  let ev0 := p0.2.1
  let ctr0 := p0.2.2
  if data0.force ∨ docVersion ≠ data0.version ∨ data0.task = none then
    let oldTask := data0.task
    let d1 : DiagData := { id := ctr0, entries := [], version := none, task := none, force := false }
    let evCancel : List DiagEvent := match oldTask with
      | some tsk => if taskDone tsk then [] else [DiagEvent.cancelPosted tsk]
      | none => []
    let d2 : DiagData := { d1 with version := docVersion, task := some (ctr0 + 1) }
    let resp := if prev = some d2.id then DiagReport.unchanged d2.id
                else DiagReport.full (flattenEntries d2.entries) d2.id
    (resp, d2, ev0 ++ [DiagEvent.installed ctr0] ++ evCancel ++ [DiagEvent.taskCreated (ctr0 + 1)],
     ctr0 + 2)
  else
    let resp := if prev = some data0.id then DiagReport.unchanged data0.id
                else DiagReport.full (flattenEntries data0.entries) data0.id
    (resp, data0, ev0, ctr0)

/-- In every branch of `_text_document_diagnostic`, the response is the
unchanged/full alternative computed from the record that ends up stored. -/
theorem textDocumentDiagnostic_resp (taskDone : Nat → Bool)
    (docVersion : Option Int) (stored : Option DiagData) (prev : Option Nat)
    (ctr : Nat) :
    (textDocumentDiagnostic taskDone docVersion stored prev ctr).1 =
      (if prev = some (textDocumentDiagnostic taskDone docVersion stored prev ctr).2.1.id
       then DiagReport.unchanged
         (textDocumentDiagnostic taskDone docVersion stored prev ctr).2.1.id
       else DiagReport.full
         (flattenEntries
           (textDocumentDiagnostic taskDone docVersion stored prev ctr).2.1.entries)
         (textDocumentDiagnostic taskDone docVersion stored prev ctr).2.1.id) := by
  rcases stored with _ | d0
  · simp [textDocumentDiagnostic]
  · by_cases hc : (d0.force = true ∨ docVersion ≠ d0.version ∨ d0.task = none)
    · simp [textDocumentDiagnostic, hc]
    · simp [textDocumentDiagnostic, hc]

/-- C3: the pull-diagnostics request/response contract.  (a) The first request
for a freshly opened document (no stored data, no previous id) answers a full
report with the freshly installed record's entries and its new id; (b) a repeat
request carrying the current id, with the version unchanged, no force flag and
a live task, answers the unchanged variant with the same id and sends no
entries; (c) whenever the caller's previous id differs from the current
record's id, the full aggregated entries and the current id are returned. -/
theorem text_document_diagnostic_contract (taskDone : Nat → Bool)
    (docVersion : Option Int) (ctr : Nat) (d : DiagData) (prev : Option Nat)
    (hforce : d.force = false) (htask : d.task.isSome)
    (hver : docVersion = d.version) :
    (textDocumentDiagnostic taskDone docVersion none none ctr).1 =
      DiagReport.full [] ((textDocumentDiagnostic taskDone docVersion none none ctr).2.1.id) ∧
    (textDocumentDiagnostic taskDone docVersion (some d) (some d.id) ctr).1 =
      DiagReport.unchanged d.id ∧
    (∀ (stored : Option DiagData),
      prev ≠ some (textDocumentDiagnostic taskDone docVersion stored prev ctr).2.1.id →
      (textDocumentDiagnostic taskDone docVersion stored prev ctr).1 =
        DiagReport.full
          (flattenEntries (textDocumentDiagnostic taskDone docVersion stored prev ctr).2.1.entries)
          ((textDocumentDiagnostic taskDone docVersion stored prev ctr).2.1.id)) := by
  refine ⟨?_, ?_, ?_⟩
  · simp [textDocumentDiagnostic, flattenEntries]
  · obtain ⟨tsk, htsk⟩ := Option.isSome_iff_exists.mp htask
    simp [textDocumentDiagnostic, hforce, htsk, hver]
  · intro stored hne
    rw [textDocumentDiagnostic_resp taskDone docVersion stored prev ctr, if_neg hne]

/-- Witness for `text_document_diagnostic_contract`. -/
theorem text_document_diagnostic_contract_witness :
    (textDocumentDiagnostic (fun _ => false) (some 1) none none 10).1 =
      DiagReport.full [] ((textDocumentDiagnostic (fun _ => false) (some 1) none none 10).2.1.id) ∧
    (textDocumentDiagnostic (fun _ => false) (some 1)
        (some { id := 4, entries := [(0, some [7])], version := some 1,
                task := some 5, force := false }) (some 4) 10).1 =
      DiagReport.unchanged 4 ∧
    (textDocumentDiagnostic (fun _ => false) (some 1) none none 10).1 =
      DiagReport.full
        (flattenEntries ((textDocumentDiagnostic (fun _ => false) (some 1) none none 10).2.1.entries))
        ((textDocumentDiagnostic (fun _ => false) (some 1) none none 10).2.1.id) := by
  have h := text_document_diagnostic_contract (fun _ => false) (some 1) 10
    { id := 4, entries := [(0, some [7])], version := some 1, task := some 5, force := false }
    none rfl rfl rfl
  exact ⟨h.1, h.2.1, h.2.2 none (by decide)⟩

/-- Whether some `cancelPosted` event occurs strictly before some `installed`
event in an event trace. -/
def cancelBeforeInstall : List DiagEvent → Bool
  | [] => false
  | DiagEvent.cancelPosted _ :: rest =>
      rest.any (fun e => match e with | DiagEvent.installed _ => true | _ => false) ||
      cancelBeforeInstall rest
  | _ :: rest => cancelBeforeInstall rest

/-- C7 counterexample state: a stored record with a live (not done) task 5 and
the force flag set, so the request must rerun. -/
def c7Stored : DiagData :=
  { id := 0, entries := [], version := some 1, task := some 5, force := true }

/-- C7 is false as stated: on a rerun with a prior active task, the handler
installs the new run record (`document.set_data`) first and only then posts
the cancellation for the old task — the cancellation is not "before the new
run record is installed".  Concretely the event trace is
`[installed 10, cancelPosted 5, taskCreated 11]`: the cancel is posted, but
after the install. -/
theorem cancel_posted_after_install_counterexample :
    (textDocumentDiagnostic (fun _ => false) (some 1) (some c7Stored) none 10).2.2.1 =
      [DiagEvent.installed 10, DiagEvent.cancelPosted 5, DiagEvent.taskCreated 11] ∧
    cancelBeforeInstall
      ((textDocumentDiagnostic (fun _ => false) (some 1) (some c7Stored) none 10).2.2.1) =
      false := by
  decide

/-- C7 as amended: on a rerun while the prior task is alive, the cancellation
for the prior task is always posted — immediately after the new run record is
installed, not before — and the new record is a fresh object with a fresh task
handle, so the stale run (which writes to the replaced record) cannot
overwrite the new run's results. -/
theorem rerun_cancels_prior_task (taskDone : Nat → Bool) (docVersion : Option Int)
    (d : DiagData) (prev : Option Nat) (ctr : Nat) (tsk : Nat)
    (htask : d.task = some tsk) (hlive : taskDone tsk = false)
    (hrerun : d.force = true ∨ docVersion ≠ d.version) :
    (textDocumentDiagnostic taskDone docVersion (some d) prev ctr).2.2.1 =
      [DiagEvent.installed ctr, DiagEvent.cancelPosted tsk, DiagEvent.taskCreated (ctr + 1)] ∧
    (textDocumentDiagnostic taskDone docVersion (some d) prev ctr).2.1.task = some (ctr + 1) := by
  have hc : (d.force = true ∨ docVersion ≠ d.version ∨ d.task = none) := by
    rcases hrerun with h | h
    · exact Or.inl h
    · exact Or.inr (Or.inl h)
  simp [textDocumentDiagnostic, hc, htask, hlive]
  rw [if_pos hrerun]
  exact ⟨rfl, rfl⟩

/-- Witness for `rerun_cancels_prior_task`. -/
theorem rerun_cancels_prior_task_witness :
    (textDocumentDiagnostic (fun _ => false) (some 1) (some c7Stored) none 10).2.2.1 =
      [DiagEvent.installed 10, DiagEvent.cancelPosted 5, DiagEvent.taskCreated 11] ∧
    (textDocumentDiagnostic (fun _ => false) (some 1) (some c7Stored) none 10).2.1.task =
      some 11 :=
  rerun_cancels_prior_task (fun _ => false) (some 1) c7Stored none 10 5
    rfl rfl (Or.inl rfl)

/-! ### JSON-RPC dispatcher — parameter binding (`_convert_params`)

Python values reaching the binder are modelled by `PyVal`; the typed object
produced by the descriptor (`param_type(**params)`; note the source's
`issubclass(type, BaseModel)` test is always false, so the constructor branch
always runs) is modelled by its `__dict__`: the ordered field list of the raw
mapping.  `inspect.signature` is modelled by an ordered list of named
parameters with their kinds. -/

/-- A Python value: an opaque primitive or an object with ordered fields. -/
inductive PyVal
  | prim (n : Nat)
  | obj (fields : List (String × PyVal))

/-- `inspect.Parameter.kind`. -/
inductive ParamKind
  | posOnly
  | posOrKw
  | varPos
  | kwOnly
  | varKw
  deriving Repr, DecidableEq

/-- One parameter of the handler's signature. -/
structure SigParam where
  name : String
  kind : ParamKind

/-- Python `dict` assignment `d[k] = v`: overwrite in place if the key exists
(keeping its position), else append. -/
def dictInsert (l : List (String × PyVal)) (k : String) (v : PyVal) :
    List (String × PyVal) :=
  if l.any (fun p => p.1 = k) then l.map (fun p => if p.1 = k then (k, v) else p)
  else l ++ [(k, v)]

/-- The running state of `_convert_params`' signature loop. -/
structure ConvState where
  args : List PyVal
  kwArgs : List (String × PyVal)
  paramsAdded : Bool
  rest : List String

/-- The `for v in signature.parameters.values()` loop of `_convert_params`:
a parameter whose name is a field of the converted object receives the field
positionally when positional-only, by keyword when the handler has a
`**`-bucket, and is otherwise dropped; the field name is removed from `rest`.
A parameter literally named `params` that is not a field receives the whole
converted object. -/
def convertLoop (whole : PyVal) (fields : List (String × PyVal)) (hasVarKw : Bool) :
    List SigParam → ConvState → ConvState
  | [], st => st
  | v :: sig, st =>
      match fields.lookup v.name with
      | some fv =>
          let st1 := if v.kind = ParamKind.posOnly then { st with args := st.args ++ [fv] }
                     else if hasVarKw then { st with kwArgs := dictInsert st.kwArgs v.name fv }
                     else st
          convertLoop whole fields hasVarKw sig { st1 with rest := st1.rest.erase v.name }
      | none =>
          if v.name = "params" then
            (if v.kind = ParamKind.posOnly then
              convertLoop whole fields hasVarKw sig
                { st with args := st.args ++ [whole], paramsAdded := true }
            else
              convertLoop whole fields hasVarKw sig
                { st with kwArgs := dictInsert st.kwArgs v.name whole, paramsAdded := true })
          else convertLoop whole fields hasVarKw sig st

/-- `_convert_params` for a present raw mapping and a given descriptor type:
run the signature loop, then flow the unmapped fields (`rest`) into the
`**`-bucket when there is one, adding the whole object under `"params"` when
no `params` parameter was bound. -/
def convertTyped (sig : List SigParam) (fields : List (String × PyVal)) :
    List PyVal × List (String × PyVal) :=
  let whole := PyVal.obj fields
  let hasVarKw := sig.any (fun p => p.kind = ParamKind.varKw)
  let st := convertLoop whole fields hasVarKw sig
    { args := [], kwArgs := [], paramsAdded := false, rest := fields.map (fun f => f.1) }
  if hasVarKw then
    let kw1 := st.rest.foldl
      (fun kw r => match fields.lookup r with
        | some v => dictInsert kw r v
        | none => kw) st.kwArgs
    (st.args, if st.paramsAdded then kw1 else dictInsert kw1 "params" whole)
  else
    (st.args, st.kwArgs)

/-- The raw `params` member of an incoming message. -/
inductive RawParams
  | absent
  | mapping (fields : List (String × PyVal))
  | single (v : PyVal)

/-- `_convert_params` in full: absent params invoke with no arguments; with a
descriptor the raw mapping is parsed into the typed shape and bound through
`convertTyped` (a non-mapping raises, surfaced as an error); without a
descriptor a mapping is spread as keyword arguments and anything else is a
single positional argument. -/
def convertParams (sig : List SigParam) (hasParamType : Bool) (params : RawParams) :
    Except String (List PyVal × List (String × PyVal)) :=
  match params with
  | RawParams.absent => Except.ok ([], [])
  | RawParams.mapping fields =>
      if hasParamType then Except.ok (convertTyped sig fields)
      else Except.ok ([], fields)
  | RawParams.single v =>
      if hasParamType then Except.error "TypeError: argument must be a mapping"
      else Except.ok ([v], [])

/-- The positional arguments `_convert_params` actually builds: one value per
positional-only parameter, in signature order — the field of the same name if
present, else the whole typed object for a parameter named `params`, else
nothing. -/
def specArgs (sig : List SigParam) (fields : List (String × PyVal)) : List PyVal :=
  sig.filterMap (fun p =>
    if p.kind = ParamKind.posOnly then
      match fields.lookup p.name with
      | some v => some v
      | none => if p.name = "params" then some (PyVal.obj fields) else none
    else none)

/-- Loop invariant: the signature loop appends exactly `specArgs` to `args`. -/
theorem convertLoop_args (whole : PyVal) (fields : List (String × PyVal))
    (hvk : Bool) :
    ∀ (ss : List SigParam) (st : ConvState),
      (convertLoop whole fields hvk ss st).args =
        st.args ++ (ss.filterMap (fun p =>
          if p.kind = ParamKind.posOnly then
            match fields.lookup p.name with
            | some v => some v
            | none => if p.name = "params" then some whole else none
          else none)) := by
  intro ss
  induction ss with
  | nil => intro st; simp [convertLoop]
  | cons v ss ih =>
      intro st
      simp only [convertLoop]
      cases hlk : fields.lookup v.name with
      | some fv =>
          by_cases hk : v.kind = ParamKind.posOnly
          · simp [hk, ih, hlk]
          · cases hvk with
            | true => simp [hk, ih, hlk]
            | false => simp [hk, ih, hlk]
      | none =>
          by_cases hp : v.name = "params"
          · rw [hp] at hlk
            by_cases hk : v.kind = ParamKind.posOnly
            · rw [List.filterMap_cons]
              simp [hp, hk, ih, hlk]
            · rw [List.filterMap_cons]
              simp [hp, hk, ih, hlk]
          · by_cases hk : v.kind = ParamKind.posOnly
            · simp [hp, hk, ih, hlk]
            · simp [hp, hk, ih, hlk]

/-- Membership in a Python-dict insertion. -/
theorem dictInsert_mem (l : List (String × PyVal)) (k : String) (v : PyVal)
    (q : String × PyVal) (hq : q ∈ dictInsert l k v) : q ∈ l ∨ q = (k, v) := by
  unfold dictInsert at hq
  split at hq
  · rcases List.mem_map.mp hq with ⟨p, hp, hpe⟩
    by_cases hk : p.1 = k
    · right; rw [← hpe]; simp [hk]
    · left; rw [← hpe]; simpa [hk] using hp
  · rcases List.mem_append.mp hq with h | h
    · exact Or.inl h
    · exact Or.inr (by simpa using h)

/-- Without a `**`-bucket, the signature loop can put only the whole-object
`params` binding into the keyword arguments. -/
theorem convertLoop_kw_novarkw (whole : PyVal) (fields : List (String × PyVal)) :
    ∀ (ss : List SigParam) (st : ConvState),
      (∀ q ∈ st.kwArgs, q = ("params", whole)) →
      ∀ q ∈ (convertLoop whole fields false ss st).kwArgs, q = ("params", whole) := by
  intro ss
  induction ss with
  | nil => intro st hst; simpa [convertLoop] using hst
  | cons v ss ih =>
      intro st hst q hq
      simp only [convertLoop] at hq
      cases hlk : fields.lookup v.name with
      | some fv =>
          simp only [hlk, Bool.false_eq_true, if_false] at hq
          by_cases hk : v.kind = ParamKind.posOnly
          · rw [if_pos hk] at hq
            refine ih _ ?_ q hq
            intro q2 hq2
            exact hst q2 hq2
          · rw [if_neg hk] at hq
            refine ih _ ?_ q hq
            intro q2 hq2
            exact hst q2 hq2
      | none =>
          simp only [hlk] at hq
          by_cases hp : v.name = "params"
          · rw [if_pos hp] at hq
            by_cases hk : v.kind = ParamKind.posOnly
            · rw [if_pos hk] at hq
              refine ih _ ?_ q hq
              intro q2 hq2
              exact hst q2 hq2
            · rw [if_neg hk] at hq
              refine ih _ ?_ q hq
              intro q2 hq2
              rcases dictInsert_mem _ _ _ _ hq2 with h | h
              · exact hst q2 h
              · rw [h, hp]
          · rw [if_neg hp] at hq
            exact ih _ hst q hq

/-- C9 is false as stated: a typed field whose name matches an ordinary
(positional-or-keyword) handler parameter is dropped entirely when the handler
has no catch-all keyword bucket — the call is built with no arguments at
all. -/
theorem convert_params_drops_field_counterexample :
    convertTyped [{ name := "x", kind := ParamKind.posOrKw }] [("x", PyVal.prim 1)] =
      ([], []) := by
  rfl


def matchedBy (fields : List (String × PyVal)) (ss : List SigParam) (nm : String) : Bool :=
  ss.any (fun p => decide (p.name = nm) && (fields.lookup nm).isSome)

def kwSpecLoop (whole : PyVal) (fields : List (String × PyVal)) (ss : List SigParam) :
    List (String × PyVal) :=
  ss.filterMap (fun p =>
    if p.kind = ParamKind.posOnly then none
    else match fields.lookup p.name with
      | some v => some (p.name, v)
      | none => if p.name = "params" then some ("params", whole) else none)

theorem dictInsert_fresh (l : List (String × PyVal)) (k : String) (v : PyVal)
    (h : ∀ p ∈ l, p.1 ≠ k) : dictInsert l k v = l ++ [(k, v)] := by
  have hany : l.any (fun p => p.1 = k) = false := by
    rw [List.any_eq_false]
    intro p hp
    simpa using h p hp
  unfold dictInsert
  rw [hany]
  simp

theorem kwSpecLoop_keys (whole : PyVal) (fields : List (String × PyVal))
    (ss : List SigParam) (q : String × PyVal) (hq : q ∈ kwSpecLoop whole fields ss) :
    q.1 ∈ ss.map (fun p => p.name) := by
  rcases List.mem_filterMap.mp hq with ⟨p, hp, hf⟩
  by_cases hk : p.kind = ParamKind.posOnly
  · rw [if_pos hk] at hf; cases hf
  · rw [if_neg hk] at hf
    cases hlk : fields.lookup p.name with
    | some v =>
        rw [hlk] at hf
        cases hf
        exact List.mem_map.mpr ⟨p, hp, rfl⟩
    | none =>
        rw [hlk] at hf
        by_cases hpn : p.name = "params"
        · rw [if_pos hpn] at hf
          cases hf
          exact List.mem_map.mpr ⟨p, hp, by simp [hpn]⟩
        · rw [if_neg hpn] at hf; cases hf

theorem convertLoop_kw_char (whole : PyVal) (fields : List (String × PyVal)) :
    ∀ (ss : List SigParam) (st : ConvState),
      (ss.map (fun p => p.name)).Nodup →
      (∀ q ∈ st.kwArgs, ∀ p ∈ ss, q.1 ≠ p.name) →
      (convertLoop whole fields true ss st).kwArgs =
        st.kwArgs ++ kwSpecLoop whole fields ss := by
  intro ss
  induction ss with
  | nil => intro st _ _; simp [convertLoop, kwSpecLoop]
  | cons v ss ih =>
      intro st hnd hfr
      rw [List.map_cons] at hnd
      obtain ⟨hvn, hnd'⟩ := List.nodup_cons.mp hnd
      have hfr' : ∀ q ∈ st.kwArgs, ∀ p ∈ ss, q.1 ≠ p.name :=
        fun q hq p hp => hfr q hq p (List.mem_cons_of_mem v hp)
      cases hlk : fields.lookup v.name with
      | some fv =>
          simp only [convertLoop, hlk]
          by_cases hk : v.kind = ParamKind.posOnly
          · rw [if_pos hk]
            show (convertLoop whole fields true ss
              ⟨st.args ++ [fv], st.kwArgs, st.paramsAdded, st.rest.erase v.name⟩).kwArgs = _
            rw [ih ⟨st.args ++ [fv], st.kwArgs, st.paramsAdded, st.rest.erase v.name⟩ hnd' hfr']
            simp [kwSpecLoop, hk, hlk]
          · rw [if_neg hk]
            simp only [ite_true]
            have hins : dictInsert st.kwArgs v.name fv = st.kwArgs ++ [(v.name, fv)] :=
              dictInsert_fresh _ _ _ (fun p hp => hfr p hp v (List.mem_cons_self v ss))
            have hfr2 : ∀ q ∈ dictInsert st.kwArgs v.name fv, ∀ p ∈ ss, q.1 ≠ p.name := by
              rw [hins]
              intro q hq p hp
              rcases List.mem_append.mp hq with h | h
              · exact hfr' q h p hp
              · have hq2 : q = (v.name, fv) := by simpa using h
                rw [hq2]
                intro hcon
                simp only at hcon
                exact hvn (by rw [hcon]; exact List.mem_map.mpr ⟨p, hp, rfl⟩)
            show (convertLoop whole fields true ss
              ⟨st.args, dictInsert st.kwArgs v.name fv, st.paramsAdded,
               st.rest.erase v.name⟩).kwArgs = _
            rw [ih ⟨st.args, dictInsert st.kwArgs v.name fv, st.paramsAdded,
               st.rest.erase v.name⟩ hnd' hfr2, hins]
            simp [kwSpecLoop, hk, hlk]
      | none =>
          simp only [convertLoop, hlk]
          by_cases hp : v.name = "params"
          · rw [if_pos hp]
            rw [hp] at hlk
            by_cases hk : v.kind = ParamKind.posOnly
            · rw [if_pos hk]
              show (convertLoop whole fields true ss
                ⟨st.args ++ [whole], st.kwArgs, true, st.rest⟩).kwArgs = _
              rw [ih ⟨st.args ++ [whole], st.kwArgs, true, st.rest⟩ hnd' hfr']
              simp [kwSpecLoop, hk, hlk, hp]
            · rw [if_neg hk]
              have hins : dictInsert st.kwArgs v.name whole = st.kwArgs ++ [(v.name, whole)] :=
                dictInsert_fresh _ _ _ (fun p hp2 => hfr p hp2 v (List.mem_cons_self v ss))
              have hfr2 : ∀ q ∈ dictInsert st.kwArgs v.name whole, ∀ p2 ∈ ss, q.1 ≠ p2.name := by
                rw [hins]
                intro q hq p2 hp2
                rcases List.mem_append.mp hq with h | h
                · exact hfr' q h p2 hp2
                · have hq2 : q = (v.name, whole) := by simpa using h
                  rw [hq2]
                  intro hcon
                  simp only at hcon
                  exact hvn (by rw [hcon]; exact List.mem_map.mpr ⟨p2, hp2, rfl⟩)
              show (convertLoop whole fields true ss
                ⟨st.args, dictInsert st.kwArgs v.name whole, true, st.rest⟩).kwArgs = _
              rw [ih ⟨st.args, dictInsert st.kwArgs v.name whole, true, st.rest⟩ hnd' hfr2, hins]
              simp [kwSpecLoop, hk, hlk, hp]
          · rw [if_neg hp]
            rw [ih st hnd' hfr']
            simp [kwSpecLoop, hp, hlk]

theorem convertLoop_rest (whole : PyVal) (fields : List (String × PyVal)) :
    ∀ (ss : List SigParam) (st : ConvState), st.rest.Nodup →
      (convertLoop whole fields true ss st).rest =
        st.rest.filter (fun nm => !(matchedBy fields ss nm)) := by
  intro ss
  induction ss with
  | nil => intro st _; simp [convertLoop, matchedBy]
  | cons v ss ih =>
      intro st hnd
      cases hlk : fields.lookup v.name with
      | some fv =>
          simp only [convertLoop, hlk]
          have herase : ∀ (r : List String), r.Nodup →
              r.erase v.name = r.filter (fun nm => !(decide (nm = v.name))) := by
            intro r hr
            rw [List.Nodup.erase_eq_filter hr]
            exact List.filter_congr (fun x _ => by
              by_cases hxy : x = v.name <;> simp [bne, hxy])
          by_cases hk : v.kind = ParamKind.posOnly
          · rw [if_pos hk]
            show (convertLoop whole fields true ss
              ⟨st.args ++ [fv], st.kwArgs, st.paramsAdded, st.rest.erase v.name⟩).rest = _
            rw [ih ⟨st.args ++ [fv], st.kwArgs, st.paramsAdded, st.rest.erase v.name⟩
              (by exact (List.Nodup.erase _ hnd))]
            show (st.rest.erase v.name).filter _ = _
            rw [herase st.rest hnd, List.filter_filter]
            refine List.filter_congr ?_
            intro nm _
            by_cases he : nm = v.name
            · subst he
              simp [matchedBy, hlk]
            · simp [matchedBy, he, Ne.symm he]
          · rw [if_neg hk]
            simp only [ite_true]
            show (convertLoop whole fields true ss
              ⟨st.args, dictInsert st.kwArgs v.name fv, st.paramsAdded,
               st.rest.erase v.name⟩).rest = _
            rw [ih ⟨st.args, dictInsert st.kwArgs v.name fv, st.paramsAdded,
               st.rest.erase v.name⟩ (by exact (List.Nodup.erase _ hnd))]
            show (st.rest.erase v.name).filter _ = _
            rw [herase st.rest hnd, List.filter_filter]
            refine List.filter_congr ?_
            intro nm _
            by_cases he : nm = v.name
            · subst he
              simp [matchedBy, hlk]
            · simp [matchedBy, he, Ne.symm he]
      | none =>
          simp only [convertLoop, hlk]
          have hstep : ∀ st2 : ConvState, st2.rest = st.rest →
              (convertLoop whole fields true ss st2).rest =
                st.rest.filter (fun nm => !(matchedBy fields (v :: ss) nm)) := by
            intro st2 hr2
            rw [ih st2 (hr2 ▸ hnd), hr2]
            refine List.filter_congr ?_
            intro nm _
            by_cases he : nm = v.name
            · subst he
              simp [matchedBy, hlk]
            · simp [matchedBy, he, Ne.symm he]
          by_cases hp : v.name = "params"
          · rw [if_pos hp]
            by_cases hk : v.kind = ParamKind.posOnly
            · rw [if_pos hk]
              exact hstep _ rfl
            · rw [if_neg hk]
              exact hstep _ rfl
          · rw [if_neg hp]
            exact hstep _ rfl

theorem convertLoop_paramsAdded (whole : PyVal) (fields : List (String × PyVal))
    (hnp : fields.lookup "params" = none) :
    ∀ (ss : List SigParam) (st : ConvState),
      (convertLoop whole fields true ss st).paramsAdded =
        (st.paramsAdded || ss.any (fun p => decide (p.name = "params"))) := by
  intro ss
  induction ss with
  | nil => intro st; simp [convertLoop]
  | cons v ss ih =>
      intro st
      cases hlk : fields.lookup v.name with
      | some fv =>
          have hvp : v.name ≠ "params" := by
            intro h
            rw [h, hnp] at hlk
            cases hlk
          simp only [convertLoop, hlk]
          by_cases hk : v.kind = ParamKind.posOnly
          · rw [if_pos hk]
            show (convertLoop whole fields true ss
              ⟨st.args ++ [fv], st.kwArgs, st.paramsAdded, st.rest.erase v.name⟩).paramsAdded = _
            rw [ih ⟨st.args ++ [fv], st.kwArgs, st.paramsAdded, st.rest.erase v.name⟩]
            simp [hvp]
          · rw [if_neg hk]
            simp only [ite_true]
            show (convertLoop whole fields true ss
              ⟨st.args, dictInsert st.kwArgs v.name fv, st.paramsAdded,
               st.rest.erase v.name⟩).paramsAdded = _
            rw [ih ⟨st.args, dictInsert st.kwArgs v.name fv, st.paramsAdded,
               st.rest.erase v.name⟩]
            simp [hvp]
      | none =>
          simp only [convertLoop, hlk]
          by_cases hp : v.name = "params"
          · rw [if_pos hp]
            by_cases hk : v.kind = ParamKind.posOnly
            · rw [if_pos hk]
              rw [ih ⟨st.args ++ [whole], st.kwArgs, true, st.rest⟩]
              simp [hp]
            · rw [if_neg hk]
              rw [ih ⟨st.args, dictInsert st.kwArgs v.name whole, true, st.rest⟩]
              simp [hp]
          · rw [if_neg hp]
            rw [ih st]
            simp [hp]

theorem lookup_isSome_of_mem_names (fields : List (String × PyVal)) (nm : String)
    (h : nm ∈ fields.map (fun f => f.1)) : (fields.lookup nm).isSome = true := by
  induction fields with
  | nil => simp at h
  | cons f tl ih =>
      obtain ⟨k, w⟩ := f
      rw [List.map_cons, List.mem_cons] at h
      by_cases he2 : nm = k
      · subst he2
        simp [List.lookup_cons]
      · rw [List.lookup_cons]
        have hb : (nm == k) = false := by simp [he2]
        rw [hb]
        rcases h with he | hm
        · exact absurd he he2
        · exact ih hm

theorem foldl_rest_append (fields : List (String × PyVal)) :
    ∀ (rest : List String) (kw : List (String × PyVal)),
      (∀ r ∈ rest, ∀ q ∈ kw, q.1 ≠ r) →
      (∀ r ∈ rest, (fields.lookup r).isSome = true) →
      rest.Nodup →
      rest.foldl
        (fun kw r => match fields.lookup r with
          | some v => dictInsert kw r v
          | none => kw) kw =
      kw ++ rest.filterMap (fun r => (fields.lookup r).map (fun v => (r, v))) := by
  intro rest
  induction rest with
  | nil => intro kw _ _ _; simp
  | cons r tl ih =>
      intro kw hfr hsome hnd
      obtain ⟨hr, hnd'⟩ := List.nodup_cons.mp hnd
      obtain ⟨v, hv⟩ := Option.isSome_iff_exists.mp (hsome r (List.mem_cons_self r tl))
      simp only [List.foldl_cons, hv]
      have hins : dictInsert kw r v = kw ++ [(r, v)] :=
        dictInsert_fresh _ _ _ (fun q hq => hfr r (List.mem_cons_self r tl) q hq)
      rw [hins, ih (kw ++ [(r, v)]) ?_ ?_ hnd']
      · simp [hv, List.append_assoc]
      · intro r2 hr2 q hq
        rcases List.mem_append.mp hq with h | h
        · exact hfr r2 (List.mem_cons_of_mem r hr2) q h
        · have : q = (r, v) := by simpa using h
          rw [this]
          intro hcon
          simp only at hcon
          exact hr (hcon ▸ hr2)
      · exact fun r2 hr2 => hsome r2 (List.mem_cons_of_mem r hr2)

theorem names_pairs (P : String → Bool) :
    ∀ (fields : List (String × PyVal)), (fields.map (fun f => f.1)).Nodup →
      ((fields.map (fun f => f.1)).filter P).filterMap
          (fun r => (fields.lookup r).map (fun v => (r, v))) =
        fields.filter (fun f => P f.1) := by
  intro fields
  induction fields with
  | nil => intro _; simp
  | cons f tl ih =>
      intro hnd
      obtain ⟨k, w⟩ := f
      rw [List.map_cons] at hnd
      obtain ⟨hf, hnd'⟩ := List.nodup_cons.mp hnd
      have htail : ∀ r ∈ (tl.map (fun f => f.1)).filter P,
          (List.lookup r ((k, w) :: tl)).map (fun v => (r, v)) =
          (List.lookup r tl).map (fun v => (r, v)) := by
        intro r hrmem
        have hrtl : r ∈ tl.map (fun f => f.1) := List.mem_of_mem_filter hrmem
        have hrne : (r == k) = false := by
          simp only [beq_eq_false_iff_ne]
          intro hcon
          exact hf (hcon ▸ hrtl)
        rw [List.lookup_cons, hrne]
      have hself : List.lookup k ((k, w) :: tl) = some w := by
        rw [List.lookup_cons]
        simp
      by_cases hPf : P k
      · simp only [List.map_cons, List.filter_cons_of_pos hPf, List.filterMap_cons, hself]
        rw [List.filterMap_congr htail, ih hnd']
        simp [hPf]
      · simp only [List.map_cons, List.filter_cons_of_neg hPf]
        rw [List.filterMap_congr htail, ih hnd']
        simp [hPf]

theorem convertTyped_kw_char (sig : List SigParam) (fields : List (String × PyVal))
    (hvk : sig.any (fun p => p.kind = ParamKind.varKw) = true)
    (hsnd : (sig.map (fun p => p.name)).Nodup)
    (hfnd : (fields.map (fun f => f.1)).Nodup)
    (hnp : fields.lookup "params" = none) :
    (convertTyped sig fields).2 =
      kwSpecLoop (PyVal.obj fields) fields sig ++
      fields.filter (fun f => !(matchedBy fields sig f.1)) ++
      (if sig.any (fun p => decide (p.name = "params")) then []
       else [("params", PyVal.obj fields)]) := by
  have hkw := convertLoop_kw_char (PyVal.obj fields) fields sig
    ⟨[], [], false, fields.map (fun f => f.1)⟩ hsnd (by intro q hq; simp at hq)
  have hrest := convertLoop_rest (PyVal.obj fields) fields sig
    ⟨[], [], false, fields.map (fun f => f.1)⟩ (by simpa using hfnd)
  have hpa := convertLoop_paramsAdded (PyVal.obj fields) fields hnp sig
    ⟨[], [], false, fields.map (fun f => f.1)⟩
  simp only [List.nil_append] at hkw
  simp only [Bool.false_or] at hpa
  have hfr : ∀ r ∈ (fields.map (fun f => f.1)).filter
      (fun nm => !(matchedBy fields sig nm)),
      ∀ q ∈ kwSpecLoop (PyVal.obj fields) fields sig, q.1 ≠ r := by
    intro r hr q hq
    have hrn : r ∈ fields.map (fun f => f.1) := List.mem_of_mem_filter hr
    have hnm : (matchedBy fields sig r) = false := by
      have := List.of_mem_filter hr
      simpa using this
    have hqk := kwSpecLoop_keys (PyVal.obj fields) fields sig q hq
    rcases List.mem_map.mp hqk with ⟨p, hp, hpe⟩
    intro hcon
    have : matchedBy fields sig r = true := by
      unfold matchedBy
      rw [List.any_eq_true]
      refine ⟨p, hp, ?_⟩
      rw [hpe, hcon]
      simp [lookup_isSome_of_mem_names fields r hrn]
    rw [this] at hnm
    cases hnm
  have hsm : ∀ r ∈ (fields.map (fun f => f.1)).filter
      (fun nm => !(matchedBy fields sig nm)), (fields.lookup r).isSome = true :=
    fun r hr => lookup_isSome_of_mem_names fields r (List.mem_of_mem_filter hr)
  have hnd2 : ((fields.map (fun f => f.1)).filter
      (fun nm => !(matchedBy fields sig nm))).Nodup := List.Nodup.filter _ hfnd
  have hfold := foldl_rest_append fields
    ((fields.map (fun f => f.1)).filter (fun nm => !(matchedBy fields sig nm)))
    (kwSpecLoop (PyVal.obj fields) fields sig) hfr hsm hnd2
  have hpairs := names_pairs (fun nm => !(matchedBy fields sig nm)) fields hfnd
  unfold convertTyped
  rw [hvk]
  simp only [if_true, ite_true]
  rw [hkw, hrest, hpa, hfold, hpairs]
  by_cases hany : sig.any (fun p => decide (p.name = "params")) = true
  · rw [if_pos hany, if_pos hany]
    simp
  · rw [if_neg hany, if_neg hany]
    have hfresh : ∀ q ∈ kwSpecLoop (PyVal.obj fields) fields sig ++
        fields.filter (fun f => !(matchedBy fields sig f.1)), q.1 ≠ "params" := by
      intro q hq
      rcases List.mem_append.mp hq with h | h
      · have hqk := kwSpecLoop_keys (PyVal.obj fields) fields sig q h
        rcases List.mem_map.mp hqk with ⟨p, hp, hpe⟩
        intro hcon
        refine hany ?_
        rw [List.any_eq_true]
        exact ⟨p, hp, by simp [hpe ▸ hcon]⟩
      · have hqf : q ∈ fields := List.mem_of_mem_filter h
        intro hcon
        have : (fields.lookup "params").isSome = true := by
          refine lookup_isSome_of_mem_names fields _ ?_
          rw [← hcon]
          exact List.mem_map.mpr ⟨q, hqf, rfl⟩
        rw [hnp] at this
        cases this
    rw [dictInsert_fresh _ _ _ hfresh]

/-- C9 as amended: with a descriptor type and a present raw mapping,
(a) positional-only parameters receive, in signature order, the same-named
field — or the whole typed object for a positional-only parameter named
`params` with no such field — and nothing else is passed positionally;
(b) when the handler has no catch-all keyword bucket, a same-named ordinary
parameter does NOT receive the field: the only keyword binding ever passed is
the whole typed object under `params`;
(c) when the handler has a catch-all keyword bucket, the keyword arguments are
exactly: the same-named field for each non-positional-only parameter (the
whole object for an unmatched `params` parameter), then every unmatched field
(the flow into the bucket), then the whole object under `params` unless some
parameter named `params` was already bound. -/
theorem convert_params_binding (sig : List SigParam) (fields : List (String × PyVal))
    (hsnd : (sig.map (fun p => p.name)).Nodup)
    (hfnd : (fields.map (fun f => f.1)).Nodup)
    (hnp : fields.lookup "params" = none) :
    (convertTyped sig fields).1 = specArgs sig fields ∧
    (sig.any (fun p => p.kind = ParamKind.varKw) = false →
      ∀ q ∈ (convertTyped sig fields).2, q = ("params", PyVal.obj fields)) ∧
    (sig.any (fun p => p.kind = ParamKind.varKw) = true →
      (convertTyped sig fields).2 =
        kwSpecLoop (PyVal.obj fields) fields sig ++
        fields.filter (fun f => !(matchedBy fields sig f.1)) ++
        (if sig.any (fun p => decide (p.name = "params")) then []
         else [("params", PyVal.obj fields)])) := by
  refine ⟨?_, ?_, fun hvk => convertTyped_kw_char sig fields hvk hsnd hfnd hnp⟩
  · have hargs := convertLoop_args (PyVal.obj fields) fields
      (sig.any (fun p => p.kind = ParamKind.varKw)) sig
      ⟨[], [], false, fields.map (fun f => f.1)⟩
    unfold convertTyped
    by_cases hb : sig.any (fun p => p.kind = ParamKind.varKw) = true
    · rw [hb]
      simp only [if_true, ite_true]
      rw [show (sig.any (fun p => p.kind = ParamKind.varKw)) = true from hb] at hargs
      rw [hargs]
      simp [specArgs]
    · rw [Bool.not_eq_true] at hb
      rw [hb]
      simp only [Bool.false_eq_true, if_false]
      rw [show (sig.any (fun p => p.kind = ParamKind.varKw)) = false from hb] at hargs
      rw [hargs]
      simp [specArgs]
  · intro hb q hq
    unfold convertTyped at hq
    rw [hb] at hq
    simp only [Bool.false_eq_true, if_false] at hq
    exact convertLoop_kw_novarkw (PyVal.obj fields) fields sig
      ⟨[], [], false, fields.map (fun f => f.1)⟩ (by intro q2 hq2; simp at hq2) q hq

/-- Witness for `convert_params_binding`: a handler
`(text_document, /, identifier, **kwargs)` and params fields
`text_document`, `extra`; and a no-bucket handler `(params)` receiving the
whole object. -/
theorem convert_params_binding_witness :
    (convertTyped
        [{ name := "text_document", kind := ParamKind.posOnly },
         { name := "identifier", kind := ParamKind.posOrKw },
         { name := "kwargs", kind := ParamKind.varKw }]
        [("text_document", PyVal.prim 1), ("extra", PyVal.prim 2)]).1 =
      specArgs
        [{ name := "text_document", kind := ParamKind.posOnly },
         { name := "identifier", kind := ParamKind.posOrKw },
         { name := "kwargs", kind := ParamKind.varKw }]
        [("text_document", PyVal.prim 1), ("extra", PyVal.prim 2)] ∧
    (convertTyped
        [{ name := "text_document", kind := ParamKind.posOnly },
         { name := "identifier", kind := ParamKind.posOrKw },
         { name := "kwargs", kind := ParamKind.varKw }]
        [("text_document", PyVal.prim 1), ("extra", PyVal.prim 2)]).2 =
      kwSpecLoop
        (PyVal.obj [("text_document", PyVal.prim 1), ("extra", PyVal.prim 2)])
        [("text_document", PyVal.prim 1), ("extra", PyVal.prim 2)]
        [{ name := "text_document", kind := ParamKind.posOnly },
         { name := "identifier", kind := ParamKind.posOrKw },
         { name := "kwargs", kind := ParamKind.varKw }] ++
      List.filter
        (fun f => !(matchedBy [("text_document", PyVal.prim 1), ("extra", PyVal.prim 2)]
          [{ name := "text_document", kind := ParamKind.posOnly },
           { name := "identifier", kind := ParamKind.posOrKw },
           { name := "kwargs", kind := ParamKind.varKw }] f.1))
        [("text_document", PyVal.prim 1), ("extra", PyVal.prim 2)] ++
      [("params", PyVal.obj [("text_document", PyVal.prim 1), ("extra", PyVal.prim 2)])] ∧
    ("params", PyVal.obj [("y", PyVal.prim 3)]) =
      ("params", PyVal.obj [("y", PyVal.prim 3)]) := by
  have h1 := convert_params_binding
    [{ name := "text_document", kind := ParamKind.posOnly },
     { name := "identifier", kind := ParamKind.posOrKw },
     { name := "kwargs", kind := ParamKind.varKw }]
    [("text_document", PyVal.prim 1), ("extra", PyVal.prim 2)]
    (by decide) (by decide) rfl
  have h2 := convert_params_binding
    [{ name := "params", kind := ParamKind.kwOnly }]
    [("y", PyVal.prim 3)]
    (by decide) (by decide) rfl
  refine ⟨h1.1, ?_, ?_⟩
  · have := h1.2.2 rfl
    rw [this]
    rfl
  · refine h2.2.1 rfl ("params", PyVal.obj [("y", PyVal.prim 3)]) ?_
    rw [show (convertTyped [{ name := "params", kind := ParamKind.kwOnly }]
      [("y", PyVal.prim 3)]).2 =
      [("params", PyVal.obj [("y", PyVal.prim 3)])] from rfl]
    exact List.mem_cons_self _ _

/-! ### JSON-RPC dispatcher — message handling

`JsonRPCProtocol.handle_message` dispatches by message class: Request,
Notification, Error (checked before Response, being a subclass), Response.
Request ids are `Union[str, int, None]`; the pending-request table maps an id
to `(future, result_type_or_converter)`.  `_try_convert_value` is abstracted
as an optional converter `PyVal → Except String PyVal` (a raised conversion
exception is its `error` case).  Registered handlers are abstracted as
functions from bound arguments to a result or a raised exception. -/

/-- A request/response id (`Union[str, int]`), plus `Option` for null. -/
abbrev RequestId := Sum String Int

/-- JSON-RPC error codes (`JsonRPCErrors`). -/
def PARSE_ERROR : Int := -32700

/-- `JsonRPCErrors.INVALID_REQUEST`. -/
def INVALID_REQUEST : Int := -32600

/-- `JsonRPCErrors.METHOD_NOT_FOUND`. -/
def METHOD_NOT_FOUND : Int := -32601

/-- `JsonRPCErrors.INVALID_PARAMS`. -/
def INVALID_PARAMS : Int := -32602

/-- `JsonRPCErrors.INTERNAL_ERROR`. -/
def INTERNAL_ERROR : Int := -32603

/-- `send_error` message for an unknown method. -/
def unknownMethodMsg (m : String) : String := "Unknown method: " ++ m

/-- `handle_response` message for a null response id. -/
def nullIdMsg : String := "Invalid response. Response id is null"

/-- `handle_response` message for an id missing from the pending table. -/
def unknownIdMsg : String := "Invalid response. Could not find id in our request list"

/-- `handle_error` raises `NotImplementedError`. -/
def notImplementedMsg : String := "NotImplementedError"

/-- A pending outgoing request: the completion future (named by an opaque
handle) and the optional result-shape converter. -/
structure PendingEntry where
  future : Nat
  resultConv : Option (PyVal → Except String PyVal)

/-- How a pending future is completed. -/
inductive FutureOutcome
  | fulfilled (v : PyVal)
  | failed (e : String)

/-- A message written back to the transport. -/
inductive SentMsg
  | response (id : Option RequestId) (result : Option PyVal)
  | errorMsg (code : Int) (emessage : String) (id : Option RequestId)

/-- A registered method: the handler's signature, whether a parameter-shape
descriptor was given, and the handler itself (arguments to result or raised
exception). -/
structure RegEntry where
  sig : List SigParam
  hasParamType : Bool
  run : List PyVal → List (String × PyVal) → Except String PyVal

/-- An incoming JSON-RPC message (`JsonRPCRequest`, `JsonRPCNotification`,
`JsonRPCError`, `JsonRPCResponse`). -/
inductive RpcMsg
  | request (id : Option RequestId) (method : String) (params : RawParams)
  | notification (method : String) (params : RawParams)
  | errorReply (id : Option RequestId) (code : Int) (emessage : String)
  | response (id : Option RequestId) (result : PyVal)

/-- `JsonRPCProtocol.handle_request`: unknown method sends
`METHOD_NOT_FOUND` with the request's id; otherwise parameters are bound and
the handler runs, its result sent as a response and any fault reported as
`INTERNAL_ERROR` with the request's id. -/
def handleRequest (reg : List (String × RegEntry)) (id : Option RequestId)
    (method : String) (params : RawParams) : List SentMsg :=
  match reg.lookup method with
  | none => [SentMsg.errorMsg METHOD_NOT_FOUND (unknownMethodMsg method) id]
  | some e =>
      match convertParams e.sig e.hasParamType params with
      | Except.error msg => [SentMsg.errorMsg INTERNAL_ERROR msg id]
      | Except.ok (args, kw) =>
          match e.run args kw with
          | Except.ok v => [SentMsg.response id (some v)]
          | Except.error msg => [SentMsg.errorMsg INTERNAL_ERROR msg id]

/-- `JsonRPCProtocol.handle_notification`: unknown method only logs; a known
method is invoked but never answered, and its faults are only logged. -/
def handleNotification (reg : List (String × RegEntry)) (method : String)
    (params : RawParams) : List SentMsg :=
  match reg.lookup method with
  | none => []
  | some e =>
      match convertParams e.sig e.hasParamType params with
      | Except.error _ => []
      | Except.ok (args, kw) =>
          match e.run args kw with
          | _ => []

/-- `JsonRPCProtocol.handle_response`: a null id or an id missing from the
pending table sends `INTERNAL_ERROR` (with no id); a matching entry is
popped and its future fulfilled with the converted result, or failed when the
conversion raises.  Returns the new table, the sent messages, and the future
action. -/
def handleResponse (table : List (RequestId × PendingEntry))
    (msgId : Option RequestId) (result : PyVal) :
    List (RequestId × PendingEntry) × List SentMsg × Option (Nat × FutureOutcome) :=
  match msgId with
  | none => (table, [SentMsg.errorMsg INTERNAL_ERROR nullIdMsg none], none)
  | some i =>
      match table.lookup i with
      | none => (table, [SentMsg.errorMsg INTERNAL_ERROR unknownIdMsg none], none)
      | some entry =>
          let table2 := table.eraseP (fun p => decide (p.1 = i))
          let outcome := match entry.resultConv with
            | none => FutureOutcome.fulfilled result
            | some f =>
                match f result with
                | Except.ok v => FutureOutcome.fulfilled v
                | Except.error e => FutureOutcome.failed e
          (table2, [], some (entry.future, outcome))

/-- `JsonRPCProtocol.handle_message`: dispatch on the message class; an
incoming `JsonRPCError` reply reaches `handle_error`, which is
`raise NotImplementedError()` — modelled as an `Except.error` escaping the
handler (it is then only logged by the dispatch loop's done-callback). -/
def handleMessage (reg : List (String × RegEntry))
    (table : List (RequestId × PendingEntry)) (msg : RpcMsg) :
    Except String
      (List (RequestId × PendingEntry) × List SentMsg × Option (Nat × FutureOutcome)) :=
  match msg with
  | RpcMsg.request id m p => Except.ok (table, handleRequest reg id m p, none)
  | RpcMsg.notification m p => Except.ok (table, handleNotification reg m p, none)
  | RpcMsg.errorReply _ _ _ => Except.error notImplementedMsg
  | RpcMsg.response id result => Except.ok (handleResponse table id result)

/-- C5: an unknown request method is answered with an error whose code is
`METHOD_NOT_FOUND` and whose id is the request's id; the same method as a
notification produces no outgoing message at all. -/
theorem unknown_method_dispatch (reg : List (String × RegEntry))
    (id : Option RequestId) (method : String) (params : RawParams)
    (hmiss : reg.lookup method = none) :
    handleRequest reg id method params =
      [SentMsg.errorMsg METHOD_NOT_FOUND (unknownMethodMsg method) id] ∧
    handleNotification reg method params = [] := by
  constructor
  · unfold handleRequest
    rw [hmiss]
  · unfold handleNotification
    rw [hmiss]

/-- Witness for `unknown_method_dispatch`. -/
theorem unknown_method_dispatch_witness :
    handleRequest [] (some (Sum.inl "42")) "does/notExist" RawParams.absent =
      [SentMsg.errorMsg METHOD_NOT_FOUND (unknownMethodMsg "does/notExist")
        (some (Sum.inl "42"))] ∧
    handleNotification [] "does/notExist" RawParams.absent = [] :=
  unknown_method_dispatch [] (some (Sum.inl "42")) "does/notExist" RawParams.absent rfl

/-- C4 counterexample pending table: one entry under id `"abc"`. -/
def c4Table : List (RequestId × PendingEntry) :=
  [(Sum.inl "abc", { future := 0, resultConv := none })]

/-- C4 is false as stated for Error replies: `handle_error` is
`raise NotImplementedError()`, so an incoming Error whose id matches a pending
entry neither removes the entry nor completes its future nor sends anything —
the handler just raises (the exception is logged by the dispatch loop). -/
theorem error_reply_not_implemented_counterexample :
    handleMessage [] c4Table
        (RpcMsg.errorReply (some (Sum.inl "abc")) (-32000) "boom") =
      Except.error notImplementedMsg := rfl

/-- C4 as amended, for Response messages: a response whose id matches a
pending entry pops exactly that entry and completes its future with the
converted result (failing it when the conversion raises); a response with an
unknown id sends `INTERNAL_ERROR` back, leaves the table unchanged, and the
dispatcher does not crash (`handle_message` returns normally for every
response).  Error replies instead raise `NotImplementedError`. -/
theorem handle_response_contract (table : List (RequestId × PendingEntry))
    (i : RequestId) (entry : PendingEntry) (result : PyVal) :
    (table.lookup i = some entry →
      handleResponse table (some i) result =
        (table.eraseP (fun p => decide (p.1 = i)), [],
         some (entry.future,
           match entry.resultConv with
           | none => FutureOutcome.fulfilled result
           | some f =>
               match f result with
               | Except.ok v => FutureOutcome.fulfilled v
               | Except.error e => FutureOutcome.failed e))) ∧
    (table.lookup i = none →
      handleResponse table (some i) result =
        (table, [SentMsg.errorMsg INTERNAL_ERROR unknownIdMsg none], none)) ∧
    (∀ (reg : List (String × RegEntry)) (id : Option RequestId),
      handleMessage reg table (RpcMsg.response id result) =
        Except.ok (handleResponse table id result)) := by
  refine ⟨?_, ?_, fun _ _ => rfl⟩
  · intro hlk
    simp only [handleResponse, hlk]
  · intro hlk
    simp only [handleResponse, hlk]

/-- A converter that always raises, for the witness. -/
def failingConv : PyVal → Except String PyVal := fun _ => Except.error "conv"

/-- Witness table: a plain entry and one with a raising converter. -/
def c4Table2 : List (RequestId × PendingEntry) :=
  [(Sum.inl "a", { future := 7, resultConv := none }),
   (Sum.inr 5, { future := 8, resultConv := some failingConv })]

/-- Witness for `handle_response_contract`. -/
theorem handle_response_contract_witness :
    handleResponse c4Table2 (some (Sum.inl "a")) (PyVal.prim 3) =
      ([(Sum.inr 5, { future := 8, resultConv := some failingConv })], [],
       some (7, FutureOutcome.fulfilled (PyVal.prim 3))) ∧
    handleResponse c4Table2 (some (Sum.inr 5)) (PyVal.prim 3) =
      ([(Sum.inl "a", { future := 7, resultConv := none })], [],
       some (8, FutureOutcome.failed "conv")) ∧
    handleResponse c4Table2 (some (Sum.inl "zzz")) (PyVal.prim 3) =
      (c4Table2, [SentMsg.errorMsg INTERNAL_ERROR unknownIdMsg none], none) ∧
    handleMessage [] c4Table2 (RpcMsg.response (some (Sum.inl "a")) (PyVal.prim 3)) =
      Except.ok (handleResponse c4Table2 (some (Sum.inl "a")) (PyVal.prim 3)) := by
  have h1 := (handle_response_contract c4Table2 (Sum.inl "a")
    { future := 7, resultConv := none } (PyVal.prim 3)).1 rfl
  have h2 := (handle_response_contract c4Table2 (Sum.inr 5)
    { future := 8, resultConv := some failingConv } (PyVal.prim 3)).1 rfl
  have h3 := (handle_response_contract c4Table2 (Sum.inl "zzz")
    { future := 0, resultConv := none } (PyVal.prim 3)).2.1 rfl
  have h4 := (handle_response_contract c4Table2 (Sum.inl "a")
    { future := 7, resultConv := none } (PyVal.prim 3)).2.2 [] (some (Sum.inl "a"))
  exact ⟨h1, h2, h3, h4⟩

/-! ## C2 and C8: the byte-stream framing of `JsonRPCProtocol.data_received`

The regex `MESSAGE_PATTERN` (protocol.py:421-428) and the buffering loop
(protocol.py:430-458), embedded over `List Char`. -/

/-- `p` is a prefix of `l`. -/
def listPre {α : Type} (p l : List α) : Prop := ∃ t, p ++ t = l

theorem listPre_split {α : Type} (a b q : List α) (h : listPre q (a ++ b)) :
    listPre q a ∨ ∃ q2, q = a ++ q2 ∧ listPre q2 b := by
  induction a generalizing q with
  | nil =>
      right
      exact ⟨q, rfl, h⟩
  | cons x a ih =>
      cases q with
      | nil => exact Or.inl ⟨x :: a, rfl⟩
      | cons y q =>
          obtain ⟨t, ht⟩ := h
          rw [List.cons_append] at ht
          injection ht with h1 h2
          subst h1
          rcases ih q ⟨t, h2⟩ with h | ⟨q2, hq2, hpre⟩
          · obtain ⟨t2, ht2⟩ := h
            exact Or.inl ⟨t2, by rw [List.cons_append, ht2]⟩
          · exact Or.inr ⟨q2, by rw [hq2, List.cons_append], hpre⟩

theorem listPre_append_right {α : Type} (a b : List α) : listPre a (a ++ b) := ⟨b, rfl⟩

theorem listPre_nil {α : Type} (l : List α) : listPre [] l := ⟨l, rfl⟩

theorem listPre_of_nil {α : Type} (q : List α) (h : listPre q []) : q = [] := by
  obtain ⟨t, ht⟩ := h
  have := congrArg List.length ht
  simp at this
  exact this.1

theorem listPre_length_eq {α : Type} (p l : List α) (h : listPre p l)
    (hl : l.length ≤ p.length) : p = l := by
  obtain ⟨t, ht⟩ := h
  have : t = [] := by
    have := congrArg List.length ht
    simp at this
    exact List.eq_nil_of_length_eq_zero (by omega)
  rw [this] at ht
  simpa using ht

theorem listPre_drop {α : Type} (a q2 l : List α) (h : listPre (a ++ q2) l) :
    listPre q2 (l.drop a.length) := by
  obtain ⟨t, ht⟩ := h
  refine ⟨t, ?_⟩
  rw [← ht, List.append_assoc, List.drop_append_of_le_length (le_refl _)]
  simp

/-! ### CRLF line scanning (the `(?:[^\r\n]*\r\n)*` part of `MESSAGE_PATTERN`)

A header line is a run of non-CR-LF characters followed by `"\r\n"`.  The
regex consumes such lines greedily from position 0; `crlfSplit` computes that
maximal decomposition and the remainder at which line scanning stops. -/

/-- Scan `s` into complete `\r\n`-terminated lines (each kept with its
terminator) and the remainder; `acc` holds the reversed run scanned so far. -/
def crlfSplitAux : List Char → List Char → List (List Char) × List Char
  | [], acc => ([], acc.reverse)
  | '\r' :: '\n' :: rest, acc =>
      let p := crlfSplitAux rest []
      ((acc.reverse ++ ['\r', '\n']) :: p.1, p.2)
  | c :: rest, acc =>
      if c = '\r' ∨ c = '\n' then ([], acc.reverse ++ c :: rest)
      else crlfSplitAux rest (c :: acc)

/-- The maximal leading CRLF-line decomposition of a buffer. -/
def crlfSplit (s : List Char) : List (List Char) × List Char := crlfSplitAux s []

/-- No carriage return and no newline occurs in `run`. -/
def crlfFree (run : List Char) : Prop := '\r' ∉ run ∧ '\n' ∉ run

theorem crlfSplitAux_join (s acc : List Char) :
    ((crlfSplitAux s acc).1.flatten ++ (crlfSplitAux s acc).2) = acc.reverse ++ s := by
  induction s, acc using crlfSplitAux.induct with
  | case1 acc => simp [crlfSplitAux]
  | case2 rest acc ih =>
      simp only [crlfSplitAux, List.flatten_cons, List.append_assoc]
      simp [ih, List.append_assoc]
  | case3 c rest acc hnp hc =>
      rw [crlfSplitAux.eq_3 acc c rest hnp, if_pos hc]
      simp
  | case4 c rest acc hnp hc ih =>
      rw [crlfSplitAux.eq_3 acc c rest hnp, if_neg hc]
      simpa using ih

theorem crlfSplitAux_line_len (s acc : List Char) :
    ∀ l ∈ (crlfSplitAux s acc).1, 2 ≤ l.length := by
  induction s, acc using crlfSplitAux.induct with
  | case1 acc => simp [crlfSplitAux]
  | case2 rest acc ih =>
      intro l hl
      simp only [crlfSplitAux] at hl
      rcases List.mem_cons.mp hl with he | hm
      · subst he; simp
      · exact ih l hm
  | case3 c rest acc hnp hc =>
      intro l hl
      rw [crlfSplitAux.eq_3 acc c rest hnp, if_pos hc] at hl
      simp at hl
  | case4 c rest acc hnp hc ih =>
      intro l hl
      rw [crlfSplitAux.eq_3 acc c rest hnp, if_neg hc] at hl
      exact ih l hl

/-- A complete line followed by anything: the scan takes the line and goes
on. -/
theorem crlfSplitAux_cons (run : List Char) :
    ∀ (s acc : List Char), crlfFree run →
      crlfSplitAux (run ++ '\r' :: '\n' :: s) acc =
        ((acc.reverse ++ run ++ ['\r', '\n']) :: (crlfSplit s).1, (crlfSplit s).2) := by
  induction run with
  | nil =>
      intro s acc _
      simp [crlfSplitAux, crlfSplit]
  | cons c run ih =>
      intro s acc hfree
      have hcr : c ≠ '\r' := fun h => hfree.1 (h ▸ List.mem_cons_self c run)
      have hnl : c ≠ '\n' := fun h => hfree.2 (h ▸ List.mem_cons_self c run)
      have hfree2 : crlfFree run :=
        ⟨fun h => hfree.1 (List.mem_cons_of_mem c h),
         fun h => hfree.2 (List.mem_cons_of_mem c h)⟩
      have hnp : ∀ (rest1 : List Char), c = '\r' →
          run ++ '\r' :: '\n' :: s = '\n' :: rest1 → False :=
        fun _ h _ => hcr h
      rw [List.cons_append, crlfSplitAux.eq_3 acc c (run ++ '\r' :: '\n' :: s) hnp,
        if_neg (by simp [hcr, hnl]), ih s (c :: acc) hfree2]
      simp

/-- If no newline occurs, no line can complete: the scan stalls. -/
theorem crlfSplitAux_stuck_noNL : ∀ (s acc : List Char), '\n' ∉ s →
    crlfSplitAux s acc = ([], acc.reverse ++ s) := by
  intro s
  induction s with
  | nil => intro acc _; simp [crlfSplitAux]
  | cons c rest ih =>
      intro acc hnl
      have hcn : c ≠ '\n' := fun h => hnl (h ▸ List.mem_cons_self c rest)
      have hrn : '\n' ∉ rest := fun h => hnl (List.mem_cons_of_mem c h)
      have hnp : ∀ (rest1 : List Char), c = '\r' → rest = '\n' :: rest1 → False :=
        fun r1 _ h2 => hrn (h2 ▸ List.mem_cons_self '\n' r1)
      rw [crlfSplitAux.eq_3 acc c rest hnp]
      by_cases hcr : c = '\r'
      · rw [if_pos (Or.inl hcr)]
      · rw [if_neg (by simp [hcr, hcn]), ih (c :: acc) hrn]
        simp

/-- A carriage-return-free block containing a newline stalls the scan for any
continuation. -/
theorem crlfSplitAux_stuck_NL : ∀ (B t acc : List Char), '\r' ∉ B → '\n' ∈ B →
    crlfSplitAux (B ++ t) acc = ([], acc.reverse ++ B ++ t) := by
  intro B
  induction B with
  | nil => intro t acc _ h; simp at h
  | cons c B ih =>
      intro t acc hcr hnl
      have hccr : c ≠ '\r' := fun h => hcr (h ▸ List.mem_cons_self c B)
      have hBcr : '\r' ∉ B := fun h => hcr (List.mem_cons_of_mem c h)
      have hnp : ∀ (rest1 : List Char), c = '\r' → B ++ t = '\n' :: rest1 → False :=
        fun _ h _ => hccr h
      rw [List.cons_append, crlfSplitAux.eq_3 acc c (B ++ t) hnp]
      by_cases hcn : c = '\n'
      · rw [if_pos (Or.inr hcn)]
        simp
      · have hnlB : '\n' ∈ B := by
          rcases List.mem_cons.mp hnl with h | h
          · exact absurd h.symm hcn
          · exact h
        rw [if_neg (by simp [hccr, hcn]), ih t (c :: acc) hBcr hnlB]
        simp

/-! ### `Content-Length` header parsing (the `Content-Length: ?(\d+)\r\n`
group, which must consume exactly one header line) -/

/-- The literal `Content-Length:`. -/
def clLit : List Char := "Content-Length:".data

/-- The literal `Content-Type: ` opening an optional content-type line. -/
def ctLit : List Char := "Content-Type: ".data

/-- The `\r\n` terminator. -/
def crlf : List Char := ['\r', '\n']

/-- Strip an expected literal from the front. -/
def stripLit : List Char → List Char → Option (List Char)
  | [], r => some r
  | _ :: _, [] => none
  | c :: cs, d :: ds => if c = d then stripLit cs ds else none

theorem stripLit_some (p : List Char) : ∀ (l r : List Char),
    stripLit p l = some r → l = p ++ r := by
  induction p with
  | nil => intro l r h; cases h; rfl
  | cons c cs ih =>
      intro l r h
      cases l with
      | nil => cases h
      | cons d ds =>
          rw [stripLit] at h
          by_cases he : c = d
          · rw [if_pos he] at h
            rw [← he, ih ds r h]
            rfl
          · rw [if_neg he] at h
            cases h

theorem stripLit_self (p : List Char) : ∀ r, stripLit p (p ++ r) = some r := by
  induction p with
  | nil => intro r; rfl
  | cons c cs ih => intro r; simp [stripLit, ih]

/-- `int(<digits>)`. -/
def digitsToNat (ds : List Char) : Nat :=
  ds.foldl (fun a c => a * 10 + (c.toNat - 48)) 0

/-- After the literal and optional space: nonempty digits then `\r\n`. -/
def parseCLTail (l : List Char) : Option Nat :=
  let ds := l.takeWhile (fun c => c.isDigit)
  let rest := l.dropWhile (fun c => c.isDigit)
  if ds.isEmpty then none
  else if rest = crlf then some (digitsToNat ds) else none

/-- Whether a header line is exactly `Content-Length:` + optional space +
digits + `\r\n`, and its value.  (The regex `" ?"` is greedy: it first tries
to take one space; if absent — or if the continuation fails, which it always
does when the next character is the space itself — it proceeds without.) -/
def parseContentLength (line : List Char) : Option Nat :=
  match stripLit clLit line with
  | none => none
  | some r => if r.head? = some ' ' then parseCLTail r.tail else parseCLTail r

theorem takeWhile_all {p : Char → Bool} : ∀ (ds rest : List Char),
    (∀ c ∈ ds, p c = true) → (∀ hd, rest.head? = some hd → p hd = false) →
    (ds ++ rest).takeWhile p = ds ∧ (ds ++ rest).dropWhile p = rest := by
  intro ds
  induction ds with
  | nil =>
      intro rest _ hrest
      cases rest with
      | nil => simp
      | cons r rs =>
          have := hrest r rfl
          simp [List.takeWhile, List.dropWhile, this]
  | cons d ds ih =>
      intro rest hds hrest
      have hd : p d = true := hds d (List.mem_cons_self d ds)
      have hds2 : ∀ c ∈ ds, p c = true := fun c hc => hds c (List.mem_cons_of_mem d hc)
      obtain ⟨h1, h2⟩ := ih rest hds2 hrest
      constructor
      · rw [List.cons_append, List.takeWhile_cons, hd, h1]
        simp
      · rw [List.cons_append, List.dropWhile_cons, hd, h2]
        simp

theorem parseCLTail_digits (ds : List Char) (hne : ds ≠ [])
    (hdig : ∀ c ∈ ds, c.isDigit = true) :
    parseCLTail (ds ++ crlf) = some (digitsToNat ds) := by
  obtain ⟨h1, h2⟩ := takeWhile_all (p := fun c => c.isDigit) ds crlf hdig
    (by intro hd h; cases h; rfl)
  unfold parseCLTail
  simp only [h1, h2]
  rw [if_neg (by simpa [List.isEmpty_iff] using hne)]
  simp


/-! ### Well-formed frames -/

/-- A wire frame: `Content-Length:` (optional space) digits, an optional
`Content-Type` line value, the blank line, and the body. -/
structure Frame where
  sp : Bool
  ct : Option (List Char)
  ds : List Char
  body : List Char

/-- The frame's `Content-Length` header line. -/
def clLineOf (f : Frame) : List Char :=
  clLit ++ (if f.sp then [' '] else []) ++ f.ds ++ crlf

/-- The frame's optional `Content-Type` header line. -/
def ctPartOf (f : Frame) : List Char :=
  match f.ct with
  | none => []
  | some v => ctLit ++ v ++ crlf

/-- The header block: headers then the blank line. -/
def headerOf (f : Frame) : List Char := clLineOf f ++ ctPartOf f ++ crlf

/-- The frame's wire bytes. -/
def frameBytes (f : Frame) : List Char := headerOf f ++ f.body

/-- Well-formedness: nonempty digits declaring exactly the body length, a
nonempty carriage-return-free body, and a CR/LF-free content-type value. -/
def FrameOK (f : Frame) : Prop :=
  f.ds ≠ [] ∧ (∀ c ∈ f.ds, c.isDigit = true) ∧ digitsToNat f.ds = f.body.length ∧
  f.body ≠ [] ∧ '\r' ∉ f.body ∧
  (match f.ct with
   | none => True
   | some v => '\r' ∉ v ∧ '\n' ∉ v)

/-- The byte stream of a sequence of frames. -/
def streamOf (frames : List Frame) : List Char := (frames.map frameBytes).flatten

/-- The frame's own `Content-Length` line parses to its digit value. -/
theorem parseCL_clLine (f : Frame) (hne : f.ds ≠ [])
    (hdig : ∀ c ∈ f.ds, c.isDigit = true) :
    parseContentLength (clLineOf f) = some (digitsToNat f.ds) := by
  obtain ⟨d, ds', hds⟩ : ∃ d ds', f.ds = d :: ds' := by
    cases hd : f.ds with
    | nil => exact absurd hd hne
    | cons d ds' => exact ⟨d, ds', rfl⟩
  have hddig : d.isDigit = true := hdig d (by rw [hds]; exact List.mem_cons_self d ds')
  have hdsp : d ≠ ' ' := by
    intro h
    rw [h] at hddig
    cases hddig
  unfold clLineOf parseContentLength
  cases hsp : f.sp with
  | true =>
      simp only [if_true, ite_true]
      rw [List.append_assoc, List.append_assoc, stripLit_self]
      simp only [List.singleton_append, List.head?_cons, List.tail_cons]
      rw [if_pos trivial]
      exact parseCLTail_digits f.ds hne hdig
  | false =>
      simp only [Bool.false_eq_true, if_false, ite_false]
      rw [show clLit ++ [] ++ f.ds ++ crlf = clLit ++ (f.ds ++ crlf) from by simp]
      rw [stripLit_self, hds]
      simp only [List.cons_append, List.head?_cons]
      rw [if_neg (by simpa using hdsp), ← List.cons_append, ← hds]
      exact parseCLTail_digits f.ds hne hdig

/-- The blank line is not a `Content-Length` line. -/
theorem parseCL_blank : parseContentLength crlf = none := rfl

/-- A `Content-Type` line is not a `Content-Length` line (the literals differ
at their ninth character). -/
theorem parseCL_ct (v : List Char) : parseContentLength (ctLit ++ v ++ crlf) = none := rfl

/-- Inversion for `parseCLTail`. -/
theorem parseCLTail_some (l : List Char) (n : Nat) (h : parseCLTail l = some n) :
    ∃ ds, l = ds ++ crlf ∧ ds ≠ [] ∧ (∀ c ∈ ds, c.isDigit = true) := by
  unfold parseCLTail at h
  by_cases he : (l.takeWhile (fun c => c.isDigit)).isEmpty
  · rw [if_pos he] at h
    cases h
  · rw [if_neg he] at h
    by_cases hr : l.dropWhile (fun c => c.isDigit) = crlf
    · refine ⟨l.takeWhile (fun c => c.isDigit), ?_, ?_, ?_⟩
      · rw [← hr, List.takeWhile_append_dropWhile]
      · simpa [List.isEmpty_iff] using he
      · intro c hc
        exact List.mem_takeWhile_imp hc
    · rw [if_neg hr] at h
      cases h

/-- A line that parses as `Content-Length` contains no `C` after its first
character. -/
theorem parseCL_no_C (line : List Char) (n : Nat)
    (h : parseContentLength line = some n) :
    ∀ c ∈ line.drop 1, c ≠ 'C' := by
  unfold parseContentLength at h
  cases hs : stripLit clLit line with
  | none => rw [hs] at h; cases h
  | some r =>
      simp only [hs] at h
      have hline : line = clLit ++ r := stripLit_some clLit line r hs
      have hrtail : ∃ ds sp, r = sp ++ ds ++ crlf ∧ (sp = [] ∨ sp = [' ']) ∧
          (∀ c ∈ ds, c.isDigit = true) := by
        by_cases hh : r.head? = some ' '
        · rw [if_pos hh] at h
          obtain ⟨ds, hds, _, hdig⟩ := parseCLTail_some r.tail n h
          obtain ⟨r0, rs, hr0⟩ : ∃ r0 rs, r = r0 :: rs := by
            cases r with
            | nil => cases hh
            | cons a b => exact ⟨a, b, rfl⟩
          have : r0 = ' ' := by
            rw [hr0] at hh
            simpa using hh
          refine ⟨ds, [' '], ?_, Or.inr rfl, hdig⟩
          rw [hr0, this]
          simp only [List.singleton_append, List.cons.injEq, true_and]
          rw [hr0] at hds
          simpa using hds
        · rw [if_neg hh] at h
          obtain ⟨ds, hds, _, hdig⟩ := parseCLTail_some r n h
          exact ⟨ds, [], by simpa using hds, Or.inl rfl, hdig⟩
      obtain ⟨ds, sp, hr, hsp, hdig⟩ := hrtail
      intro c hc hcC
      rw [hline] at hc
      have hcl : line.drop 1 = [] ∨ True := Or.inr trivial
      rw [show (clLit ++ r).drop 1 = clLit.drop 1 ++ r from by
        rw [List.drop_append_of_le_length (by decide)]] at hc
      rcases List.mem_append.mp hc with hcc | hcr
      · rw [show clLit.drop 1 = "ontent-Length:".data from rfl] at hcc
        subst hcC
        revert hcc
        decide
      · rw [hr] at hcr
        rcases List.mem_append.mp hcr with hcsp | hccrlf
        · rcases List.mem_append.mp hcsp with hcsp2 | hcds
          · rcases hsp with h0 | h0 <;> rw [h0] at hcsp2
            · cases hcsp2
            · subst hcC
              simp at hcsp2
          · have := hdig c hcds
            subst hcC
            cases this
        · subst hcC
          exact absurd hccrlf (by decide)

/-- A line starting with a nonempty block glued before a `C`-containing rest
is not a `Content-Length` line. -/
theorem parseCL_junction (B X : List Char) (hB : B ≠ []) (hC : 'C' ∈ X) :
    parseContentLength (B ++ X) = none := by
  cases hres : parseContentLength (B ++ X) with
  | none => rfl
  | some n =>
      exfalso
      have hdrop : (B ++ X).drop 1 = B.drop 1 ++ X := by
        cases B with
        | nil => exact absurd rfl hB
        | cons b bs => simp
      refine parseCL_no_C (B ++ X) n hres 'C' ?_ rfl
      rw [hdrop]
      exact List.mem_append.mpr (Or.inr hC)

/-- `'C'` occurs in every `Content-Length` header line we build. -/
theorem mem_C_clLineOf (f : Frame) : 'C' ∈ clLineOf f := by
  unfold clLineOf
  exact List.mem_append_left _ (List.mem_append_left _ (List.mem_append_left _ (by decide)))

/-! ### The regex match (`MESSAGE_PATTERN.match`) -/

/-- Index of the first blank (`\r\n`) line. -/
def findBlankIdx : List (List Char) → Option Nat
  | [] => none
  | l :: ls =>
      if l = crlf then some 0
      else (findBlankIdx ls).map (fun j => j + 1)

/-- Index of the first blank line at or after position `i`. -/
def findBlankFrom (ls : List (List Char)) (i : Nat) : Option Nat :=
  (findBlankIdx (ls.drop i)).map (fun j => j + i)

/-- One backtracking position of the leading line-skipping star: the line at
`k` must parse as `Content-Length`, and a blank line must follow (the
header-continuation lines between, all non-blank, are consumable by the
`(Content-Type...|[^\r\n]+\r\n)*` group). -/
def checkAt (ls : List (List Char)) (k : Nat) : Option (Nat × Nat) :=
  match ls.get? k with
  | none => none
  | some line =>
      match parseContentLength line with
      | none => none
      | some n =>
          match findBlankFrom ls (k + 1) with
          | none => none
          | some j => some (n, j)

/-- Try the star's backtracking positions from deepest (`k-1`) to 0 — the
regex engine backtracks the greedy star from the longest skip. -/
def tryFrom (ls : List (List Char)) : Nat → Option (Nat × Nat)
  | 0 => none
  | k + 1 =>
      match checkAt ls k with
      | some r => some r
      | none => tryFrom ls k

/-- Total byte length of a list of lines. -/
def sumLen (ls : List (List Char)) : Nat := (ls.map (fun l => l.length)).sum

/-- `MESSAGE_PATTERN.match(buf)`: `some (length, bodyStart)` when the pattern
matches, where `length` is the parsed `Content-Length` value and `bodyStart`
the byte offset of the `body` group (everything after the blank line). -/
def matchMsg (buf : List Char) : Option (Nat × Nat) :=
  let p := crlfSplit buf
  match tryFrom p.1 p.1.length with
  | none => none
  | some (n, j) => some (n, sumLen (p.1.take (j + 1)))

theorem tryFrom_eq_some (ls : List (List Char)) :
    ∀ (K : Nat) (r : Nat × Nat), tryFrom ls K = some r →
      ∃ k, k < K ∧ checkAt ls k = some r := by
  intro K
  induction K with
  | zero => intro r h; cases h
  | succ K ih =>
      intro r h
      rw [tryFrom] at h
      cases hc : checkAt ls K with
      | some r2 =>
          rw [hc] at h
          cases h
          exact ⟨K, Nat.lt_succ_self K, hc⟩
      | none =>
          rw [hc] at h
          obtain ⟨k, hk, hck⟩ := ih r h
          exact ⟨k, Nat.lt_succ_of_lt hk, hck⟩

theorem tryFrom_zero (ls : List (List Char)) :
    ∀ (K : Nat), (∀ k, 1 ≤ k → k < K → checkAt ls k = none) →
      tryFrom ls K = (if 0 < K then checkAt ls 0 else none) := by
  intro K
  induction K with
  | zero => intro _; rfl
  | succ K ih =>
      intro hk
      rw [tryFrom]
      cases hK : K with
      | zero =>
          simp only [if_pos (Nat.succ_pos 0)]
          cases hc : checkAt ls 0 with
          | some r => rfl
          | none => rfl
      | succ K2 =>
          rw [← hK]
          have hKc : checkAt ls K = none := hk K (by omega) (by omega)
          rw [hKc, ih (fun k h1 h2 => hk k h1 (by omega))]
          rw [if_pos (by omega), if_pos (by omega)]

theorem findBlankIdx_lt (ls : List (List Char)) :
    ∀ (j : Nat), findBlankIdx ls = some j → j < ls.length := by
  induction ls with
  | nil => intro j h; cases h
  | cons l ls ih =>
      intro j h
      rw [findBlankIdx] at h
      by_cases hb : l = crlf
      · rw [if_pos hb] at h
        cases h
        simp
      · rw [if_neg hb] at h
        cases hf : findBlankIdx ls with
        | none => rw [hf] at h; cases h
        | some j2 =>
            rw [hf] at h
            cases h
            have := ih j2 hf
            simp
            omega

/-- A carriage-return-free buffer has no complete header line. -/
theorem crlfSplit_no_lines_CRfree (s : List Char) (h : '\r' ∉ s) :
    (crlfSplit s).1 = [] := by
  by_cases hnl : '\n' ∈ s
  · have := crlfSplitAux_stuck_NL s [] [] h hnl
    rw [List.append_nil] at this
    rw [crlfSplit, this]
  · rw [crlfSplit, crlfSplitAux_stuck_noNL s [] hnl]

/-- A newline-free buffer has no complete header line. -/
theorem crlfSplit_no_lines_noNL (s : List Char) (h : '\n' ∉ s) :
    (crlfSplit s).1 = [] := by
  rw [crlfSplit, crlfSplitAux_stuck_noNL s [] h]

theorem listPre_mem {α : Type} (q l : List α) (h : listPre q l) :
    ∀ c ∈ q, c ∈ l := by
  obtain ⟨t, ht⟩ := h
  intro c hc
  rw [← ht]
  exact List.mem_append_left t hc

/-- The prefixes of `"\r\n"`. -/
theorem listPre_crlf_cases (q : List Char) (h : listPre q crlf) :
    q = [] ∨ q = ['\r'] ∨ q = crlf := by
  obtain ⟨t, ht⟩ := h
  cases q with
  | nil => exact Or.inl rfl
  | cons a q2 =>
      cases q2 with
      | nil =>
          injection ht with h1 _
          exact Or.inr (Or.inl (by rw [h1]))
      | cons b q3 =>
          cases q3 with
          | nil =>
              injection ht with h1 h2
              injection h2 with h2 _
              exact Or.inr (Or.inr (by rw [h1, h2]; rfl))
          | cons c q4 =>
              injection ht with _ h2
              injection h2 with _ h3
              cases h3

/-- A digit is not a line break. -/
theorem digit_not_crlf (c : Char) (h : c.isDigit = true) : c ≠ '\r' ∧ c ≠ '\n' := by
  constructor <;> intro he <;> rw [he] at h <;> cases h

/-- The run of the `Content-Length` line, without its terminator. -/
def clRunOf (f : Frame) : List Char := clLit ++ (if f.sp then [' '] else []) ++ f.ds

theorem clLineOf_eq (f : Frame) : clLineOf f = clRunOf f ++ crlf := rfl

theorem clRunOf_crlfFree (f : Frame) (hdig : ∀ c ∈ f.ds, c.isDigit = true) :
    crlfFree (clRunOf f) := by
  constructor <;> intro hmem
  · rcases List.mem_append.mp hmem with h | h
    · rcases List.mem_append.mp h with h2 | h2
      · revert h2; decide
      · cases hsp : f.sp <;> rw [hsp] at h2 <;> revert h2 <;> decide
    · exact (digit_not_crlf _ (hdig _ h)).1 rfl
  · rcases List.mem_append.mp hmem with h | h
    · rcases List.mem_append.mp h with h2 | h2
      · revert h2; decide
      · cases hsp : f.sp <;> rw [hsp] at h2 <;> revert h2 <;> decide
    · exact (digit_not_crlf _ (hdig _ h)).2 rfl

theorem ctRun_crlfFree (v : List Char) (hv : '\r' ∉ v ∧ '\n' ∉ v) :
    crlfFree (ctLit ++ v) := by
  constructor <;> intro hmem
  · rcases List.mem_append.mp hmem with h | h
    · revert h; decide
    · exact hv.1 h
  · rcases List.mem_append.mp hmem with h | h
    · revert h; decide
    · exact hv.2 h

/-- `crlfSplit` of a complete line followed by anything. -/
theorem crlfSplit_cons (run s : List Char) (hfree : crlfFree run) :
    crlfSplit (run ++ '\r' :: '\n' :: s) =
      ((run ++ ['\r', '\n']) :: (crlfSplit s).1, (crlfSplit s).2) := by
  rw [crlfSplit, crlfSplitAux_cons run s [] hfree]
  simp

theorem streamOf_cons (g : Frame) (gs : List Frame) :
    streamOf (g :: gs) = frameBytes g ++ streamOf gs := by
  simp [streamOf]

theorem stream_shape (g : Frame) (S : List Char) :
    frameBytes g ++ S =
      clRunOf g ++ ('\r' :: '\n' ::
        (ctPartOf g ++ ('\r' :: '\n' :: (g.body ++ S)))) := by
  simp [frameBytes, headerOf, clLineOf_eq, crlf, List.append_assoc]

theorem mem_C_clRunOf (g : Frame) : 'C' ∈ clRunOf g :=
  List.mem_append_left _ (List.mem_append_left _ (by decide))

/-- No line of `B ++ q` parses as a `Content-Length` header, whenever `B` is a
nonempty carriage-return-free block (a frame body residue) and `q` is a prefix
of a well-formed frame stream: every line is a body-glued junction line, a
`Content-Type` line, or a blank line. -/
theorem region_no_cl : ∀ (gs : List Frame), (∀ g ∈ gs, FrameOK g) →
    ∀ (B : List Char), B ≠ [] → '\r' ∉ B →
    ∀ q, listPre q (streamOf gs) →
    ∀ l ∈ (crlfSplit (B ++ q)).1, parseContentLength l = none := by
  intro gs
  induction gs with
  | nil =>
      intro _ B hB hBcr q hq l hl
      have hq0 : q = [] := listPre_of_nil q (by simpa [streamOf] using hq)
      rw [hq0, List.append_nil, crlfSplit_no_lines_CRfree B hBcr] at hl
      cases hl
  | cons g gs' ih =>
      intro hwf B hB hBcr q hq l hl
      have hg : FrameOK g := hwf g (List.mem_cons_self g gs')
      obtain ⟨hds, hdig, hlen, hbody, hbcr, hctfree⟩ := hg
      have hwf' : ∀ g2 ∈ gs', FrameOK g2 := fun g2 h => hwf g2 (List.mem_cons_of_mem g h)
      by_cases hBnl : '\n' ∈ B
      · rw [crlfSplit, crlfSplitAux_stuck_NL B q [] hBcr hBnl] at hl
        cases hl
      have hclfree : crlfFree (clRunOf g) := clRunOf_crlfFree g hdig
      have pxBody : ∀ q2, listPre q2 ('\r' :: '\n' :: (g.body ++ streamOf gs')) →
          ∀ l2 ∈ (crlfSplit q2).1, parseContentLength l2 = none := by
        intro q2 hq2 l2 hl2
        rcases listPre_split crlf (g.body ++ streamOf gs') q2 hq2 with hsmall | ⟨q3, rfl, hq3⟩
        · rcases listPre_crlf_cases q2 hsmall with h0 | h0 | h0 <;> rw [h0] at hl2
          · cases hl2
          · rw [crlfSplit_no_lines_noNL ['\r'] (by decide)] at hl2
            cases hl2
          · rw [show crlfSplit crlf = ([crlf], []) from rfl] at hl2
            rcases List.mem_cons.mp hl2 with h1 | h1
            · rw [h1]; exact parseCL_blank
            · cases h1
        · rw [show (crlf ++ q3 : List Char) = [] ++ '\r' :: '\n' :: q3 from rfl,
            crlfSplit_cons [] q3 ⟨by simp, by simp⟩] at hl2
          rcases List.mem_cons.mp hl2 with h1 | h1
          · rw [h1]; exact parseCL_blank
          · rcases listPre_split g.body (streamOf gs') q3 hq3 with hsm | ⟨q4, rfl, hq4⟩
            · have hq3cr : '\r' ∉ q3 := fun hc => hbcr (listPre_mem _ _ hsm _ hc)
              rw [crlfSplit_no_lines_CRfree q3 hq3cr] at h1
              cases h1
            · exact ih hwf' g.body hbody hbcr q4 hq4 l2 h1
      rw [streamOf_cons, stream_shape] at hq
      rcases listPre_split (clRunOf g) _ q hq with hA | ⟨q1, rfl, hq1⟩
      · have : '\n' ∉ B ++ q := by
          intro hmem
          rcases List.mem_append.mp hmem with h | h
          · exact hBnl h
          · exact hclfree.2 (listPre_mem _ _ hA _ h)
        rw [crlfSplit_no_lines_noNL _ this] at hl
        cases hl
      rw [← List.append_assoc] at hl
      have hBclfree : crlfFree (B ++ clRunOf g) := by
        constructor <;> intro hmem <;> rcases List.mem_append.mp hmem with h | h
        · exact hBcr h
        · exact hclfree.1 h
        · exact hBnl h
        · exact hclfree.2 h
      have hjunct : ∀ s2, parseContentLength (B ++ clRunOf g ++ s2) = none := by
        intro s2
        rw [List.append_assoc]
        exact parseCL_junction B (clRunOf g ++ s2) hB
          (List.mem_append_left _ (mem_C_clRunOf g))
      rcases listPre_split crlf _ q1 hq1 with hB1 | ⟨q2, rfl, hq2⟩
      · rcases listPre_crlf_cases q1 hB1 with h0 | h0 | h0 <;> rw [h0] at hl
        · rw [List.append_nil, crlfSplit_no_lines_noNL _ hBclfree.2] at hl
          cases hl
        · have : '\n' ∉ (B ++ clRunOf g) ++ ['\r'] := by
            intro hmem
            rcases List.mem_append.mp hmem with h | h
            · exact hBclfree.2 h
            · revert h; decide
          rw [crlfSplit_no_lines_noNL _ this] at hl
          cases hl
        · rw [show ((B ++ clRunOf g) ++ crlf : List Char) =
              (B ++ clRunOf g) ++ '\r' :: '\n' :: [] from rfl,
            crlfSplit_cons _ [] hBclfree] at hl
          rcases List.mem_cons.mp hl with h1 | h1
          · rw [h1]
            exact hjunct ['\r', '\n']
          · cases h1
      · rw [show ((B ++ clRunOf g) ++ (crlf ++ q2) : List Char) =
            (B ++ clRunOf g) ++ '\r' :: '\n' :: q2 from rfl,
          crlfSplit_cons _ q2 hBclfree] at hl
        rcases List.mem_cons.mp hl with h1 | h1
        · rw [h1]
          exact hjunct ['\r', '\n']
        · cases hctv : g.ct with
          | none =>
              have hq2b : listPre q2 ('\r' :: '\n' :: (g.body ++ streamOf gs')) := by
                rw [ctPartOf, hctv] at hq2
                simpa using hq2
              exact pxBody q2 hq2b l h1
          | some v =>
              have hvfree : '\r' ∉ v ∧ '\n' ∉ v := by
                rw [hctv] at hctfree
                exact hctfree
              have hctf : crlfFree (ctLit ++ v) := ctRun_crlfFree v hvfree
              have hq2c : listPre q2
                  ((ctLit ++ v) ++ ('\r' :: '\n' :: ('\r' :: '\n' :: (g.body ++ streamOf gs')))) := by
                rw [ctPartOf, hctv] at hq2
                simpa [crlf, List.append_assoc] using hq2
              rcases listPre_split (ctLit ++ v) _ q2 hq2c with hD1 | ⟨q3, rfl, hq3⟩
              · have : '\n' ∉ q2 := fun hc => hctf.2 (listPre_mem _ _ hD1 _ hc)
                rw [crlfSplit_no_lines_noNL q2 this] at h1
                cases h1
              · rcases listPre_split crlf _ q3 hq3 with hE1 | ⟨q4, rfl, hq4⟩
                · rcases listPre_crlf_cases q3 hE1 with h0 | h0 | h0 <;> rw [h0] at h1
                  · rw [List.append_nil, crlfSplit_no_lines_noNL _ hctf.2] at h1
                    cases h1
                  · have : '\n' ∉ (ctLit ++ v) ++ ['\r'] := by
                      intro hmem
                      rcases List.mem_append.mp hmem with h | h
                      · exact hctf.2 h
                      · revert h; decide
                    rw [crlfSplit_no_lines_noNL _ this] at h1
                    cases h1
                  · rw [show ((ctLit ++ v) ++ crlf : List Char) =
                        (ctLit ++ v) ++ '\r' :: '\n' :: [] from rfl,
                      crlfSplit_cons _ [] hctf] at h1
                    rcases List.mem_cons.mp h1 with h2 | h2
                    · rw [h2]
                      exact parseCL_ct v
                    · cases h2
                · rw [show ((ctLit ++ v) ++ (crlf ++ q4) : List Char) =
                      (ctLit ++ v) ++ '\r' :: '\n' :: q4 from rfl,
                    crlfSplit_cons _ q4 hctf] at h1
                  rcases List.mem_cons.mp h1 with h2 | h2
                  · rw [h2]
                    exact parseCL_ct v
                  · exact pxBody q4 hq4 l h2

/-! ### Evaluating the matcher on structured buffers -/

theorem matchMsg_no_lines (buf : List Char) (h : (crlfSplit buf).1 = []) :
    matchMsg buf = none := by
  simp only [matchMsg, h]
  rfl

theorem findBlankIdx_none_of (ls : List (List Char)) (h : ∀ l ∈ ls, l ≠ crlf) :
    findBlankIdx ls = none := by
  induction ls with
  | nil => rfl
  | cons l ls ih =>
      rw [findBlankIdx, if_neg (h l (List.mem_cons_self l ls)),
        ih (fun l2 hl2 => h l2 (List.mem_cons_of_mem l hl2))]
      rfl

theorem checkAt_none_of_no_blank (ls : List (List Char))
    (h : ∀ l ∈ ls, l ≠ crlf) (k : Nat) : checkAt ls k = none := by
  unfold checkAt
  cases hg : ls.get? k with
  | none => rfl
  | some line =>
      cases hp : parseContentLength line with
      | none => simp only [hp]
      | some n =>
          have hb : findBlankFrom ls (k + 1) = none := by
            unfold findBlankFrom
            rw [findBlankIdx_none_of _ (fun l hl => h l (List.mem_of_mem_drop hl))]
            rfl
          simp only [hp, hb]

theorem tryFrom_none_all (ls : List (List Char))
    (h : ∀ k, checkAt ls k = none) : ∀ K, tryFrom ls K = none := by
  intro K
  induction K with
  | zero => rfl
  | succ K ih => rw [tryFrom, h K]; exact ih

theorem matchMsg_no_blank (buf : List Char)
    (h : ∀ l ∈ (crlfSplit buf).1, l ≠ crlf) : matchMsg buf = none := by
  simp only [matchMsg]
  rw [tryFrom_none_all _ (checkAt_none_of_no_blank _ h) _]

theorem clLineOf_ne_crlf (f : Frame) : clLineOf f ≠ crlf := by
  intro h
  have h2 : (clLineOf f).head? = some 'C' := rfl
  rw [h] at h2
  cases h2

theorem ctLine_ne_crlf (v : List Char) : (ctLit ++ v) ++ crlf ≠ crlf := by
  intro h
  have h2 : ((ctLit ++ v) ++ crlf).head? = some 'C' := rfl
  rw [h] at h2
  cases h2

/-- The complete header lines contributed by the optional `Content-Type`
part. -/
def ctLines (f : Frame) : List (List Char) :=
  match f.ct with
  | none => []
  | some v => [(ctLit ++ v) ++ crlf]

theorem crlfSplit_header (f : Frame) (hdig : ∀ c ∈ f.ds, c.isDigit = true)
    (hct : match f.ct with | none => True | some v => '\r' ∉ v ∧ '\n' ∉ v)
    (X : List Char) :
    crlfSplit (headerOf f ++ X) =
      (clLineOf f :: (ctLines f ++ crlf :: (crlfSplit X).1), (crlfSplit X).2) := by
  have h1 : headerOf f ++ X =
      clRunOf f ++ '\r' :: '\n' :: (ctPartOf f ++ ('\r' :: '\n' :: X)) := by
    simp [headerOf, clLineOf_eq, crlf, List.append_assoc]
  rw [h1, crlfSplit_cons _ _ (clRunOf_crlfFree f hdig)]
  cases hc : f.ct with
  | none =>
      rw [show ctPartOf f = [] from by rw [ctPartOf, hc]]
      rw [List.nil_append,
        show ('\r' :: '\n' :: X : List Char) = [] ++ '\r' :: '\n' :: X from rfl,
        crlfSplit_cons [] X ⟨by simp, by simp⟩]
      simp [ctLines, hc, clLineOf_eq, crlf]
  | some v =>
      have hv : '\r' ∉ v ∧ '\n' ∉ v := by
        rw [hc] at hct
        exact hct
      rw [show ctPartOf f = (ctLit ++ v) ++ crlf from by
        rw [ctPartOf, hc]]
      rw [show ((ctLit ++ v) ++ crlf ++ ('\r' :: '\n' :: X) : List Char) =
          (ctLit ++ v) ++ '\r' :: '\n' :: ('\r' :: '\n' :: X) from by
        simp [crlf, List.append_assoc]]
      rw [crlfSplit_cons _ _ (ctRun_crlfFree v hv)]
      rw [show ('\r' :: '\n' :: X : List Char) = [] ++ '\r' :: '\n' :: X from rfl,
        crlfSplit_cons [] X ⟨by simp, by simp⟩]
      simp [ctLines, hc, clLineOf_eq, crlf]

/-- When the buffer's line decomposition is a well-formed header block followed
by lines that parse as neither `Content-Length` nor anything the star prefers,
the regex matches at the frame's own header: the greedy line-skipping star
backtracks all the way to position 0, and the body group starts right after
the frame's blank line. -/
theorem matchMsg_core (f : Frame) (hds : f.ds ≠ [])
    (hdig : ∀ c ∈ f.ds, c.isDigit = true)
    (buf : List Char) (T : List (List Char)) (rem : List Char)
    (hsplit : crlfSplit buf = (clLineOf f :: (ctLines f ++ crlf :: T), rem))
    (hT : ∀ l ∈ T, parseContentLength l = none) :
    matchMsg buf = some (digitsToNat f.ds, (headerOf f).length) := by
  cases hct : f.ct with
  | none =>
      simp only [ctLines, hct, List.nil_append] at hsplit
      have hk1 : ∀ k, 1 ≤ k → checkAt (clLineOf f :: crlf :: T) k = none := by
        intro k hk
        cases k with
        | zero => omega
        | succ k2 =>
            unfold checkAt
            simp only [List.get?_cons_succ]
            cases hg : (crlf :: T).get? k2 with
            | none => rfl
            | some line =>
                have hmem : line ∈ crlf :: T := List.get?_mem hg
                have hp : parseContentLength line = none := by
                  rcases List.mem_cons.mp hmem with h0 | h0
                  · rw [h0]; exact parseCL_blank
                  · exact hT line h0
                simp only [hp]
      have hc0 : checkAt (clLineOf f :: crlf :: T) 0 = some (digitsToNat f.ds, 1) := by
        unfold checkAt
        simp only [List.get?_cons_zero]
        rw [parseCL_clLine f hds hdig]
        have hfb : findBlankFrom (clLineOf f :: crlf :: T) 1 = some 1 := by
          unfold findBlankFrom
          simp only [List.drop_succ_cons, List.drop_zero]
          rw [findBlankIdx, if_pos rfl]
          rfl
        simp only [hfb]
      have htf : tryFrom (clLineOf f :: crlf :: T) (clLineOf f :: crlf :: T).length
          = some (digitsToNat f.ds, 1) := by
        rw [tryFrom_zero _ _ (fun k h1 _ => hk1 k h1), if_pos (by simp), hc0]
      simp only [matchMsg, hsplit]
      rw [htf]
      simp [sumLen, headerOf, ctPartOf, hct, crlf]
  | some v =>
      simp only [ctLines, hct, List.cons_append, List.nil_append] at hsplit
      have hk1 : ∀ k, 1 ≤ k →
          checkAt (clLineOf f :: ((ctLit ++ v) ++ crlf) :: crlf :: T) k = none := by
        intro k hk
        cases k with
        | zero => omega
        | succ k2 =>
            unfold checkAt
            simp only [List.get?_cons_succ]
            cases hg : (((ctLit ++ v) ++ crlf) :: crlf :: T).get? k2 with
            | none => rfl
            | some line =>
                have hmem : line ∈ ((ctLit ++ v) ++ crlf) :: crlf :: T := List.get?_mem hg
                have hp : parseContentLength line = none := by
                  rcases List.mem_cons.mp hmem with h0 | h0
                  · rw [h0]; exact parseCL_ct v
                  · rcases List.mem_cons.mp h0 with h2 | h2
                    · rw [h2]; exact parseCL_blank
                    · exact hT line h2
                simp only [hp]
      have hc0 : checkAt (clLineOf f :: ((ctLit ++ v) ++ crlf) :: crlf :: T) 0 =
          some (digitsToNat f.ds, 2) := by
        unfold checkAt
        simp only [List.get?_cons_zero]
        rw [parseCL_clLine f hds hdig]
        have hfb : findBlankFrom (clLineOf f :: ((ctLit ++ v) ++ crlf) :: crlf :: T) 1 =
            some 2 := by
          unfold findBlankFrom
          simp only [List.drop_succ_cons, List.drop_zero]
          rw [findBlankIdx, if_neg (ctLine_ne_crlf v)]
          rw [findBlankIdx, if_pos rfl]
          rfl
        simp only [hfb]
      have htf : tryFrom (clLineOf f :: ((ctLit ++ v) ++ crlf) :: crlf :: T)
          (clLineOf f :: ((ctLit ++ v) ++ crlf) :: crlf :: T).length
          = some (digitsToNat f.ds, 2) := by
        rw [tryFrom_zero _ _ (fun k h1 _ => hk1 k h1), if_pos (by simp), hc0]
      simp only [matchMsg, hsplit]
      rw [htf]
      simp [sumLen, headerOf, ctPartOf, hct, crlf]
      omega

theorem drop_len_append {α : Type} : ∀ (a b : List α), (a ++ b).drop a.length = b := by
  intro a
  induction a with
  | nil => intro b; rfl
  | cons x a ih => intro b; simp only [List.cons_append, List.length_cons, List.drop_succ_cons]; exact ih b

theorem headerOf_shape (f : Frame) :
    headerOf f = clRunOf f ++ '\r' :: '\n' :: (ctPartOf f ++ crlf) := by
  simp [headerOf, clLineOf_eq, crlf, List.append_assoc]

theorem clRun_line_ne_crlf (f : Frame) : clRunOf f ++ ['\r', '\n'] ≠ crlf := by
  intro h
  have h2 : (clRunOf f ++ ['\r', '\n']).head? = some 'C' := rfl
  rw [h] at h2
  cases h2

theorem ctRun_line_ne_crlf (v : List Char) : (ctLit ++ v) ++ ['\r', '\n'] ≠ crlf := by
  intro h
  have h2 : ((ctLit ++ v) ++ ['\r', '\n']).head? = some 'C' := rfl
  rw [h] at h2
  cases h2

/-- Matching a complete header block followed by a carriage-return-free block
(a partial or complete body with nothing behind it). -/
theorem matchMsg_at_header (f : Frame) (hds : f.ds ≠ [])
    (hdig : ∀ c ∈ f.ds, c.isDigit = true)
    (hct : match f.ct with | none => True | some v => '\r' ∉ v ∧ '\n' ∉ v)
    (B : List Char) (hB : '\r' ∉ B) :
    matchMsg (headerOf f ++ B) = some (digitsToNat f.ds, (headerOf f).length) := by
  have hsp := crlfSplit_header f hdig hct B
  rw [crlfSplit_no_lines_CRfree B hB] at hsp
  exact matchMsg_core f hds hdig _ [] _ hsp (fun l hl => absurd hl (List.not_mem_nil l))

/-- Matching a complete frame followed by any prefix of a further well-formed
frame stream: the star cannot profitably skip into the glued region, so the
match is at the first frame's own header. -/
theorem matchMsg_frame (f : Frame) (hf : FrameOK f) (gs : List Frame)
    (hgs : ∀ g ∈ gs, FrameOK g) (S : List Char) (hS : listPre S (streamOf gs)) :
    matchMsg (frameBytes f ++ S) = some (f.body.length, (headerOf f).length) := by
  obtain ⟨hds, hdig, hlen, hbody, hbcr, hct⟩ := hf
  have hsp := crlfSplit_header f hdig hct (f.body ++ S)
  rw [show frameBytes f ++ S = headerOf f ++ (f.body ++ S) from by
    simp [frameBytes, List.append_assoc]]
  rw [← hlen]
  exact matchMsg_core f hds hdig _ _ _ hsp
    (region_no_cl gs hgs f.body hbody hbcr S hS)

/-- On a proper prefix of a single frame the loop stalls: either the pattern
does not match at all (header still incomplete) or it matches with fewer body
bytes than `Content-Length` demands. -/
theorem matchMsg_stall (f : Frame) (hf : FrameOK f) (Q : List Char)
    (hpre : listPre Q (frameBytes f)) (hne : Q ≠ frameBytes f) :
    matchMsg Q = none ∨
      (matchMsg Q = some (f.body.length, (headerOf f).length) ∧
       (Q.drop (headerOf f).length).length < f.body.length) := by
  obtain ⟨hds, hdig, hlen, hbody, hbcr, hct⟩ := hf
  have hfull : ∀ q2, listPre q2 f.body → q2 ≠ f.body →
      matchMsg (headerOf f ++ q2) = some (f.body.length, (headerOf f).length) ∧
      (((headerOf f ++ q2).drop (headerOf f).length).length < f.body.length) := by
    intro q2 hq2 hq2ne
    have hq2cr : '\r' ∉ q2 := fun hc => hbcr (listPre_mem _ _ hq2 _ hc)
    constructor
    · rw [← hlen]
      exact matchMsg_at_header f hds hdig hct q2 hq2cr
    · rw [drop_len_append]
      rcases Nat.lt_or_ge q2.length f.body.length with h | h
      · exact h
      · exact absurd (listPre_length_eq q2 f.body hq2 h) hq2ne
  rw [show frameBytes f = headerOf f ++ f.body from rfl] at hpre
  rcases listPre_split (headerOf f) f.body Q hpre with hH | ⟨q2, rfl, hq2⟩
  rotate_left
  · by_cases hq2e : q2 = f.body
    · exact absurd (by rw [hq2e]; rfl) hne
    · exact Or.inr (hfull q2 hq2 hq2e)
  rw [headerOf_shape] at hH
  have hclf := clRunOf_crlfFree f hdig
  rcases listPre_split (clRunOf f) _ Q hH with hA | ⟨q1, rfl, hq1⟩
  · exact Or.inl (matchMsg_no_lines Q (crlfSplit_no_lines_noNL Q
      (fun hc => hclf.2 (listPre_mem _ _ hA _ hc))))
  rcases listPre_split crlf _ q1 hq1 with hB1 | ⟨q2, rfl, hq2⟩
  · left
    rcases listPre_crlf_cases q1 hB1 with h0 | h0 | h0 <;> subst h0
    · exact matchMsg_no_lines _ (crlfSplit_no_lines_noNL _
        (by simp only [List.append_nil]; exact hclf.2))
    · refine matchMsg_no_lines _ (crlfSplit_no_lines_noNL _ ?_)
      intro hmem
      rcases List.mem_append.mp hmem with h | h
      · exact hclf.2 h
      · revert h; decide
    · rw [show (clRunOf f ++ crlf : List Char) = clRunOf f ++ '\r' :: '\n' :: [] from rfl]
      refine matchMsg_no_blank _ ?_
      rw [crlfSplit_cons _ _ hclf]
      intro l hl
      rcases List.mem_cons.mp hl with h1 | h1
      · subst h1
        exact clRun_line_ne_crlf f
      · rw [show (crlfSplit ([] : List Char)).1 = [] from rfl] at h1
        cases h1
  · -- the Content-Length line is complete: Q = clRunOf f ++ (crlf ++ q2)
    rw [show (clRunOf f ++ (crlf ++ q2) : List Char) =
        clRunOf f ++ '\r' :: '\n' :: q2 from rfl]
    have hlines : (crlfSplit (clRunOf f ++ '\r' :: '\n' :: q2)).1 =
        (clRunOf f ++ ['\r', '\n']) :: (crlfSplit q2).1 := by
      rw [crlfSplit_cons _ _ hclf]
    cases hcv : f.ct with
    | none =>
        have hq2c : listPre q2 crlf := by
          rw [ctPartOf, hcv] at hq2
          simpa using hq2
        rcases listPre_crlf_cases q2 hq2c with h0 | h0 | h0 <;> subst h0
        · left
          refine matchMsg_no_blank _ ?_
          rw [hlines]
          intro l hl
          rcases List.mem_cons.mp hl with h1 | h1
          · subst h1; exact clRun_line_ne_crlf f
          · rw [show (crlfSplit ([] : List Char)).1 = [] from rfl] at h1
            cases h1
        · left
          refine matchMsg_no_blank _ ?_
          rw [hlines]
          intro l hl
          rcases List.mem_cons.mp hl with h1 | h1
          · subst h1; exact clRun_line_ne_crlf f
          · rw [show (crlfSplit (['\r'] : List Char)).1 = [] from rfl] at h1
            cases h1
        · -- Q = the complete header with empty body so far
          right
          have hQeq : (clRunOf f ++ '\r' :: '\n' :: crlf : List Char) =
              headerOf f ++ [] := by
            simp [headerOf, clLineOf_eq, ctPartOf, hcv, crlf, List.append_assoc]
          rw [hQeq]
          exact hfull [] (listPre_nil _) (fun h => hbody h.symm)
    | some v =>
        have hctf : crlfFree (ctLit ++ v) := by
          rw [hcv] at hct
          exact ctRun_crlfFree v hct
        have hq2c : listPre q2 ((ctLit ++ v) ++ ('\r' :: '\n' :: crlf)) := by
          rw [ctPartOf, hcv] at hq2
          simpa [crlf, List.append_assoc] using hq2
        rcases listPre_split (ctLit ++ v) _ q2 hq2c with hD | ⟨q3, rfl, hq3⟩
        · left
          refine matchMsg_no_blank _ ?_
          rw [hlines]
          intro l hl
          rcases List.mem_cons.mp hl with h1 | h1
          · subst h1; exact clRun_line_ne_crlf f
          · rw [crlfSplit_no_lines_noNL q2
              (fun hc => hctf.2 (listPre_mem _ _ hD _ hc))] at h1
            cases h1
        · rcases listPre_split crlf crlf q3 hq3 with hE | ⟨q4, rfl, hq4⟩
          · left
            refine matchMsg_no_blank _ ?_
            rw [hlines]
            intro l hl
            rcases List.mem_cons.mp hl with h1 | h1
            · subst h1; exact clRun_line_ne_crlf f
            · rcases listPre_crlf_cases q3 hE with h0 | h0 | h0 <;> subst h0
              · rw [List.append_nil, crlfSplit_no_lines_noNL _ hctf.2] at h1
                cases h1
              · have hnl : '\n' ∉ (ctLit ++ v) ++ ['\r'] := by
                  intro hmem
                  rcases List.mem_append.mp hmem with h | h
                  · exact hctf.2 h
                  · revert h; decide
                rw [crlfSplit_no_lines_noNL _ hnl] at h1
                cases h1
              · rw [show ((ctLit ++ v) ++ crlf : List Char) =
                    (ctLit ++ v) ++ '\r' :: '\n' :: [] from rfl,
                  crlfSplit_cons _ _ hctf] at h1
                rcases List.mem_cons.mp h1 with h2 | h2
                · subst h2; exact ctRun_line_ne_crlf v
                · rw [show (crlfSplit ([] : List Char)).1 = [] from rfl] at h2
                  cases h2
          · rcases listPre_crlf_cases q4 hq4 with h0 | h0 | h0 <;> subst h0
            · left
              refine matchMsg_no_blank _ ?_
              rw [hlines]
              intro l hl
              rcases List.mem_cons.mp hl with h1 | h1
              · subst h1; exact clRun_line_ne_crlf f
              · rw [show ((ctLit ++ v) ++ (crlf ++ [] : List Char)) =
                    (ctLit ++ v) ++ '\r' :: '\n' :: [] from by simp [crlf],
                  crlfSplit_cons _ _ hctf] at h1
                rcases List.mem_cons.mp h1 with h2 | h2
                · subst h2; exact ctRun_line_ne_crlf v
                · rw [show (crlfSplit ([] : List Char)).1 = [] from rfl] at h2
                  cases h2
            · left
              refine matchMsg_no_blank _ ?_
              rw [hlines]
              intro l hl
              rcases List.mem_cons.mp hl with h1 | h1
              · subst h1; exact clRun_line_ne_crlf f
              · rw [show ((ctLit ++ v) ++ (crlf ++ ['\r'] : List Char)) =
                    (ctLit ++ v) ++ '\r' :: '\n' :: ['\r'] from by simp [crlf],
                  crlfSplit_cons _ _ hctf] at h1
                rcases List.mem_cons.mp h1 with h2 | h2
                · subst h2; exact ctRun_line_ne_crlf v
                · rw [show (crlfSplit (['\r'] : List Char)).1 = [] from rfl] at h2
                  cases h2
            · right
              have hQeq : (clRunOf f ++ '\r' :: '\n' ::
                  ((ctLit ++ v) ++ (crlf ++ crlf)) : List Char) = headerOf f ++ [] := by
                simp [headerOf, clLineOf_eq, ctPartOf, hcv, crlf, List.append_assoc]
              rw [hQeq]
              exact hfull [] (listPre_nil _) (fun h => hbody h.symm)

/-! ### The `data_received` loop -/

/-- An observable outcome of processing one framed body: the decoded message
was dispatched, or decoding raised and `send_error(PARSE_ERROR, …)` ran with
its `id` argument left at its default `None`. -/
inductive RpcOut where
  | handled (body : List Char)
  | parseError (id : Option (Sum String Int)) (body : List Char)
  deriving DecidableEq

/-- One call of `data_received`'s `while` loop, with `fuel` bounding the
number of iterations (each iteration that loops again strictly shrinks the
buffered bytes, so any `fuel` beyond the byte count is enough): given
`_message_buf` and the incoming `data`, returns the final `_message_buf`
and the outcomes in order. -/
def goRecv (jsonOk : List Char → Bool) : Nat → List Char → List Char →
    List Char × List RpcOut
  | 0, mbuf, data => (mbuf ++ data, [])
  | fuel + 1, mbuf, data =>
      if data.isEmpty then (mbuf, [])
      else
        let buf := mbuf ++ data
        match matchMsg buf with
        | none => (buf, [])
        | some (length, bodyStart) =>
            let body := buf.drop bodyStart
            if body.length < length then (buf, [])
            else
              let msg := body.take length
              let rest := body.drop length
              let ev := if jsonOk msg then RpcOut.handled msg
                        else RpcOut.parseError none msg
              let r := goRecv jsonOk fuel [] rest
              (r.1, ev :: r.2)

/-- `JsonRPCProtocol.data_received(data)` against a protocol object whose
`_message_buf` holds `mbuf`. -/
def dataReceived (jsonOk : List Char → Bool) (mbuf data : List Char) :
    List Char × List RpcOut :=
  goRecv jsonOk (mbuf.length + data.length + 1) mbuf data

/-- Feed a sequence of chunks through successive `data_received` calls,
collecting the outcomes. -/
def feedChunks (jsonOk : List Char → Bool) (chunks : List (List Char)) :
    List Char × List RpcOut :=
  chunks.foldl
    (fun st c =>
      let r := dataReceived jsonOk st.1 c
      (r.1, st.2 ++ r.2))
    ([], [])

/-- Split a byte prefix of a frame stream into the frames completely
contained in it and the leftover bytes. -/
def splitDone : List Frame → List Char → List Frame × List Char
  | [], Q => ([], Q)
  | f :: fs, Q =>
      if (frameBytes f).length ≤ Q.length then
        let r := splitDone fs (Q.drop (frameBytes f).length)
        (f :: r.1, r.2)
      else ([], Q)

/-- The outcome sequence of a frame list. -/
def eventsOf (jsonOk : List Char → Bool) (frames : List Frame) : List RpcOut :=
  frames.map (fun f =>
    if jsonOk f.body then RpcOut.handled f.body else RpcOut.parseError none f.body)

theorem clLit_len_pos : 0 < clLit.length := by decide

theorem frameBytes_pos (f : Frame) : 0 < (frameBytes f).length := by
  simp only [frameBytes, headerOf, clLineOf, List.length_append]
  have := clLit_len_pos
  omega

theorem headerOf_pos (f : Frame) : 0 < (headerOf f).length := by
  simp only [headerOf, clLineOf, List.length_append]
  have := clLit_len_pos
  omega

theorem splitDone_nil_buf (rest : List Frame) : splitDone rest [] = ([], []) := by
  cases rest with
  | nil => rfl
  | cons f fs =>
      rw [splitDone, if_neg]
      intro hle
      simp only [List.length_nil] at hle
      have := frameBytes_pos f
      omega

theorem take_len_append {α : Type} : ∀ (a b : List α), (a ++ b).take a.length = a := by
  intro a
  induction a with
  | nil => intro b; rfl
  | cons x a ih =>
      intro b
      simp only [List.cons_append, List.length_cons, List.take_succ_cons, List.cons.injEq,
        true_and]
      exact ih b

/-- Running the `while` loop on any buffered prefix of a well-formed frame
stream processes exactly the completely-received frames, in order, and leaves
the remaining bytes buffered. -/
theorem goRecv_run (jsonOk : List Char → Bool) :
    ∀ (rest : List Frame), (∀ f ∈ rest, FrameOK f) →
    ∀ (buf : List Char), listPre buf (streamOf rest) →
    ∀ (mbuf data : List Char), mbuf ++ data = buf → data ≠ [] →
    ∀ (fuel : Nat), buf.length < fuel →
    goRecv jsonOk fuel mbuf data =
      ((splitDone rest buf).2, eventsOf jsonOk (splitDone rest buf).1) := by
  intro rest
  induction rest with
  | nil =>
      intro _ buf hpre mbuf data hsplit hdata fuel hfuel
      have hb : buf = [] := listPre_of_nil buf (by simpa [streamOf] using hpre)
      subst hb
      have hd : data = [] := by
        have h2 := congrArg List.length hsplit
        simp at h2
        exact h2.2
      exact absurd hd hdata
  | cons g rest' ih =>
      intro hwf buf hpre mbuf data hsplit hdata fuel hfuel
      have hg : FrameOK g := hwf g (List.mem_cons_self g rest')
      have hwf' : ∀ f ∈ rest', FrameOK f := fun f h => hwf f (List.mem_cons_of_mem g h)
      obtain ⟨fuel', rfl⟩ : ∃ k, fuel = k + 1 := ⟨fuel - 1, by omega⟩
      rw [goRecv, if_neg (by simpa [List.isEmpty_iff] using hdata)]
      rw [streamOf_cons] at hpre
      have hcases : (listPre buf (frameBytes g) ∧ buf ≠ frameBytes g) ∨
          (∃ q2, buf = frameBytes g ++ q2 ∧ listPre q2 (streamOf rest')) := by
        rcases listPre_split (frameBytes g) (streamOf rest') buf hpre with hA | hB
        · by_cases hbe : buf = frameBytes g
          · exact Or.inr ⟨[], by rw [hbe, List.append_nil], listPre_nil _⟩
          · exact Or.inl ⟨hA, hbe⟩
        · exact Or.inr hB
      rcases hcases with ⟨hA, hne⟩ | ⟨q2, hbe, hq2⟩
      · -- buffered bytes are a proper prefix of the first frame: stall
        have hlt : buf.length < (frameBytes g).length := by
          rcases Nat.lt_or_ge buf.length (frameBytes g).length with h | h
          · exact h
          · exact absurd (listPre_length_eq buf _ hA h) hne
        have hsd : splitDone (g :: rest') buf = ([], buf) := by
          rw [splitDone, if_neg (by omega)]
        rcases matchMsg_stall g hg buf hA hne with hm | ⟨hm, hshort⟩
        · rw [hsplit]
          simp only [hm, hsd]
          rfl
        · rw [hsplit]
          simp only [hm, hsd]
          rw [if_pos hshort]
          rfl
      · -- the first frame is complete: it is processed and the loop goes on
        subst hbe
        have hm := matchMsg_frame g hg rest' hwf' q2 hq2
        have hbodydrop : (frameBytes g ++ q2).drop (headerOf g).length = g.body ++ q2 := by
          rw [show frameBytes g ++ q2 = headerOf g ++ (g.body ++ q2) from by
            simp [frameBytes, List.append_assoc], drop_len_append]
        have hsd : splitDone (g :: rest') (frameBytes g ++ q2) =
            (g :: (splitDone rest' q2).1, (splitDone rest' q2).2) := by
          rw [splitDone, if_pos (by simp), drop_len_append]
        rw [hsplit]
        simp only [hm, hbodydrop]
        rw [if_neg (by simp)]
        rw [take_len_append, drop_len_append]
        have hrec : goRecv jsonOk fuel' [] q2 =
            ((splitDone rest' q2).2, eventsOf jsonOk (splitDone rest' q2).1) := by
          by_cases hq2n : q2 = []
          · subst hq2n
            obtain ⟨k, rfl⟩ : ∃ k, fuel' = k + 1 := by
              refine ⟨fuel' - 1, ?_⟩
              have h1 := frameBytes_pos g
              rw [List.length_append] at hfuel
              omega
            simp [goRecv, splitDone_nil_buf, eventsOf]
          · refine ih hwf' q2 hq2 [] q2 rfl hq2n fuel' ?_
            have h1 := frameBytes_pos g
            rw [List.length_append] at hfuel
            omega
        rw [hrec, hsd]
        simp [eventsOf]

theorem streamOf_append (a b : List Frame) :
    streamOf (a ++ b) = streamOf a ++ streamOf b := by
  simp [streamOf]

theorem listPre_append_left {α : Type} (x y z : List α) (h : listPre (x ++ y) z) :
    listPre x z := by
  obtain ⟨t, ht⟩ := h
  exact ⟨y ++ t, by rw [← List.append_assoc]; exact ht⟩

theorem listPre_cancel {α : Type} (a x y : List α) (h : listPre (a ++ x) (a ++ y)) :
    listPre x y := by
  obtain ⟨t, ht⟩ := h
  refine ⟨t, ?_⟩
  have h2 : a ++ (x ++ t) = a ++ y := by rw [← List.append_assoc]; exact ht
  exact List.append_cancel_left h2

/-- How `splitDone` decomposes a prefix of a frame stream, and how it behaves
when further bytes arrive. -/
theorem splitDone_chain : ∀ (rest : List Frame) (Q : List Char),
    listPre Q (streamOf rest) →
    ∃ rem : List Frame,
      rest = (splitDone rest Q).1 ++ rem ∧
      streamOf (splitDone rest Q).1 ++ (splitDone rest Q).2 = Q ∧
      listPre (splitDone rest Q).2 (streamOf rem) ∧
      splitDone rem (splitDone rest Q).2 = ([], (splitDone rest Q).2) ∧
      ∀ c, splitDone rest (Q ++ c) =
        ((splitDone rest Q).1 ++ (splitDone rem ((splitDone rest Q).2 ++ c)).1,
         (splitDone rem ((splitDone rest Q).2 ++ c)).2) := by
  intro rest
  induction rest with
  | nil =>
      intro Q hpre
      refine ⟨[], rfl, by simp [splitDone, streamOf], ?_, rfl, fun c => rfl⟩
      have : Q = [] := listPre_of_nil Q (by simpa [streamOf] using hpre)
      subst this
      exact listPre_nil _
  | cons f fs ih =>
      intro Q hpre
      rw [streamOf_cons] at hpre
      by_cases hlen : (frameBytes f).length ≤ Q.length
      · obtain ⟨Q2, rfl, hQ2⟩ : ∃ Q2, Q = frameBytes f ++ Q2 ∧ listPre Q2 (streamOf fs) := by
          rcases listPre_split (frameBytes f) (streamOf fs) Q hpre with hA | hB
          · have : Q = frameBytes f := listPre_length_eq Q _ hA hlen
            exact ⟨[], by rw [this, List.append_nil], listPre_nil _⟩
          · exact hB
        have hdropQ : (frameBytes f ++ Q2).drop (frameBytes f).length = Q2 :=
          drop_len_append _ _
        have hsd : splitDone (f :: fs) (frameBytes f ++ Q2) =
            (f :: (splitDone fs Q2).1, (splitDone fs Q2).2) := by
          rw [splitDone, if_pos hlen, hdropQ]
        obtain ⟨rem, h1, h2, h3, h4, h5⟩ := ih Q2 hQ2
        refine ⟨rem, ?_, ?_, ?_, ?_, ?_⟩
        · rw [hsd]
          simp only [List.cons_append]
          rw [← h1]
        · rw [hsd]
          simp only []
          rw [streamOf_cons, List.append_assoc, h2]
        · rw [hsd]
          exact h3
        · rw [hsd]
          exact h4
        · intro c
          have hlen2 : (frameBytes f).length ≤ ((frameBytes f ++ Q2) ++ c).length := by
            simp only [List.length_append]
            omega
          have hdropQc : ((frameBytes f ++ Q2) ++ c).drop (frameBytes f).length = Q2 ++ c := by
            rw [List.append_assoc]
            exact drop_len_append _ _
          rw [splitDone, if_pos hlen2, hdropQc, hsd]
          simp only [List.cons_append]
          rw [h5 c]
      · have hsd : splitDone (f :: fs) Q = ([], Q) := by
          rw [splitDone, if_neg hlen]
        refine ⟨f :: fs, ?_, ?_, ?_, ?_, ?_⟩
        · rw [hsd]; rfl
        · rw [hsd]; simp [streamOf]
        · rw [hsd]
          rw [streamOf_cons]
          exact hpre
        · rw [hsd]
          rw [splitDone, if_neg hlen]
        · intro c
          rw [hsd]
          rfl

theorem eventsOf_append (jsonOk : List Char → Bool) (a b : List Frame) :
    eventsOf jsonOk (a ++ b) = eventsOf jsonOk a ++ eventsOf jsonOk b := by
  simp [eventsOf]

/-- Folding chunks through `data_received`: starting from a buffered residue
containing no complete frame, the events are exactly those of the frames
completed by the arrived bytes, and the buffer is what is left over. -/
theorem feed_go (jsonOk : List Char → Bool) :
    ∀ (chunks : List (List Char)) (rest : List Frame),
    (∀ f ∈ rest, FrameOK f) →
    ∀ (R0 : List Char) (E0 : List RpcOut),
    listPre (R0 ++ chunks.flatten) (streamOf rest) →
    splitDone rest R0 = ([], R0) →
    chunks.foldl
      (fun st c =>
        let r := dataReceived jsonOk st.1 c
        (r.1, st.2 ++ r.2)) (R0, E0)
      = ((splitDone rest (R0 ++ chunks.flatten)).2,
         E0 ++ eventsOf jsonOk (splitDone rest (R0 ++ chunks.flatten)).1) := by
  intro chunks
  induction chunks with
  | nil =>
      intro rest hwf R0 E0 hpre hinv
      simp only [List.foldl_nil, List.flatten_nil, List.append_nil]
      rw [hinv]
      simp [eventsOf]
  | cons c chunks' ih =>
      intro rest hwf R0 E0 hpre hinv
      simp only [List.foldl_cons, List.flatten_cons]
      by_cases hc : c = []
      · subst hc
        have hdr : dataReceived jsonOk R0 [] = (R0, []) := by
          rw [dataReceived, goRecv]
          simp only [List.isEmpty_nil, if_true]
        simp only [hdr, List.append_nil, List.nil_append]
        exact ih rest hwf R0 E0 (by simpa using hpre) hinv
      · have hbufpre : listPre (R0 ++ c) (streamOf rest) := by
          refine listPre_append_left (R0 ++ c) chunks'.flatten _ ?_
          rw [List.append_assoc]
          exact hpre
        have hdr : dataReceived jsonOk R0 c =
            ((splitDone rest (R0 ++ c)).2,
             eventsOf jsonOk (splitDone rest (R0 ++ c)).1) := by
          rw [dataReceived]
          exact goRecv_run jsonOk rest hwf (R0 ++ c) hbufpre R0 c rfl hc _
            (by simp only [List.length_append]; omega)
        simp only [hdr]
        obtain ⟨rem, h1, h2, h3, h4, h5⟩ := splitDone_chain rest (R0 ++ c) hbufpre
        have hwfrem : ∀ f ∈ rem, FrameOK f := by
          intro f hf
          exact hwf f (by rw [h1]; exact List.mem_append_right _ hf)
        have hpre2 : listPre ((splitDone rest (R0 ++ c)).2 ++ chunks'.flatten)
            (streamOf rem) := by
          refine listPre_cancel (streamOf (splitDone rest (R0 ++ c)).1) _ _ ?_
          rw [← List.append_assoc, h2]
          rw [show streamOf (splitDone rest (R0 ++ c)).1 ++ streamOf rem
              = streamOf rest from by rw [← streamOf_append, ← h1]]
          rw [List.append_assoc]
          exact hpre
        rw [ih rem hwfrem _ _ hpre2 h4]
        rw [show R0 ++ (c ++ chunks'.flatten) = (R0 ++ c) ++ chunks'.flatten from by
          rw [List.append_assoc]]
        rw [h5 chunks'.flatten]
        simp only [eventsOf_append, List.append_assoc]

/-- `splitDone` of a complete stream is all its frames with nothing left. -/
theorem splitDone_full : ∀ (frames : List Frame),
    splitDone frames (streamOf frames) = (frames, []) := by
  intro frames
  induction frames with
  | nil => rfl
  | cons f fs ih =>
      rw [streamOf_cons, splitDone, if_pos (by simp), drop_len_append, ih]

/-- Feeding any chunk sequence whose concatenation is a byte prefix of a
well-formed frame stream decodes exactly the completely-arrived frames and
buffers the remainder. -/
theorem feedChunks_spec (jsonOk : List Char → Bool) (frames : List Frame)
    (hwf : ∀ f ∈ frames, FrameOK f) (chunks : List (List Char))
    (hpre : listPre chunks.flatten (streamOf frames)) :
    feedChunks jsonOk chunks =
      ((splitDone frames chunks.flatten).2,
       eventsOf jsonOk (splitDone frames chunks.flatten).1) := by
  have h := feed_go jsonOk chunks frames hwf [] []
    (by simpa using hpre) (splitDone_nil_buf frames)
  simpa [feedChunks] using h

def acceptAll : List Char → Bool := fun _ => true

def c2aBody1 : List Char := "\x7b\x7d\r\n".data

def c2aBody2 : List Char := "12345".data

def c2aChunk1 : List Char := "Content-Length: 4\r\n\r\n\x7b\x7d\r\n".data

def c2aChunk2 : List Char := "Content-Length: 5\r\n\r\n12345".data

/-- Chunk invariance FAILS for bodies that contain a carriage return: the
first frame's body ends in a line break, so on the unfragmented feed the
greedy line-skipping star (which the regex engine backtracks from the deepest
position) latches onto the second frame's `Content-Length` line and only the
second body is decoded, while frame-by-frame feeding decodes both. -/
theorem framing_chunk_invariance_counterexample :
    c2aChunk1 = "Content-Length: 4\r\n\r\n".data ++ c2aBody1 ∧
    c2aBody1.length = 4 ∧
    c2aChunk2 = "Content-Length: 5\r\n\r\n".data ++ c2aBody2 ∧
    c2aBody2.length = 5 ∧
    feedChunks acceptAll [c2aChunk1 ++ c2aChunk2]
      = ([], [RpcOut.handled c2aBody2]) ∧
    feedChunks acceptAll [c2aChunk1, c2aChunk2]
      = ([], [RpcOut.handled c2aBody1, RpcOut.handled c2aBody2]) := by
  refine ⟨by decide, by decide, by decide, by decide, ?_, ?_⟩ <;> decide

/-- C2: for frame streams whose bodies are nonempty and carriage-return-free,
framing is chunk-invariant: feeding any chunk split of a byte prefix of the
stream yields exactly the frames completely contained in the bytes fed so far
(fewer than `Content-Length` body bytes emit nothing and retain the buffer;
surplus bytes start the next frame, with no byte lost or re-parsed), and in
particular equals feeding the unfragmented input. -/
theorem data_received_chunk_invariant (jsonOk : List Char → Bool)
    (frames : List Frame) (hwf : ∀ f ∈ frames, FrameOK f)
    (chunks : List (List Char))
    (hpre : listPre chunks.flatten (streamOf frames)) :
    feedChunks jsonOk chunks =
      ((splitDone frames chunks.flatten).2,
       eventsOf jsonOk (splitDone frames chunks.flatten).1) ∧
    feedChunks jsonOk chunks = feedChunks jsonOk [chunks.flatten] := by
  have h1 := feedChunks_spec jsonOk frames hwf chunks hpre
  have h2 := feedChunks_spec jsonOk frames hwf [chunks.flatten] (by simpa using hpre)
  refine ⟨h1, ?_⟩
  rw [h1, h2]
  simp

def c2wFrame1 : Frame := ⟨true, none, "2".data, "\x7b\x7d".data⟩

def c2wFrame2 : Frame := ⟨true, none, "4".data, "true".data⟩

def c2wFrames : List Frame := [c2wFrame1, c2wFrame2]

def c2wChunks : List (List Char) :=
  [(streamOf c2wFrames).take 10, (streamOf c2wFrames).drop 10]

theorem data_received_chunk_invariant_witness :
    (∀ f ∈ c2wFrames, FrameOK f) ∧
    listPre c2wChunks.flatten (streamOf c2wFrames) ∧
    (feedChunks acceptAll c2wChunks =
       ((splitDone c2wFrames c2wChunks.flatten).2,
        eventsOf acceptAll (splitDone c2wFrames c2wChunks.flatten).1) ∧
     feedChunks acceptAll c2wChunks = feedChunks acceptAll [c2wChunks.flatten]) := by
  have hwf : ∀ f ∈ c2wFrames, FrameOK f := by
    intro f hf
    rcases List.mem_cons.mp hf with rfl | hf2
    · exact ⟨by decide, by decide, by decide, by decide, by decide, trivial⟩
    rcases List.mem_cons.mp hf2 with rfl | hf3
    · exact ⟨by decide, by decide, by decide, by decide, by decide, trivial⟩
    · cases hf3
  have hpre : listPre c2wChunks.flatten (streamOf c2wFrames) := by
    refine ⟨[], ?_⟩
    rw [List.append_nil]
    simp [c2wChunks]
  exact ⟨hwf, hpre, data_received_chunk_invariant acceptAll c2wFrames hwf c2wChunks hpre⟩

def c8Garbage : List Char := "X\r\n\r\n".data

def c8GoodFrame : List Char := "Content-Length: 4\r\n\r\ntrue".data

def c8TrueBody : List Char := "true".data

/-- A received block whose header is malformed is NOT reported: the regex does
not match, so `data_received` silently keeps the bytes buffered and emits no
PARSE_ERROR; once valid input follows, the junk header lines are silently
skipped by the line-skipping star and decoding proceeds — still with no
report. -/
theorem malformed_header_no_parse_error_counterexample :
    feedChunks acceptAll [c8Garbage] = (c8Garbage, []) ∧
    feedChunks acceptAll [c8Garbage, c8GoodFrame]
      = ([], [RpcOut.handled c8TrueBody]) := by
  constructor <;> decide

/-- C8: for well-formed frames, a body that fails JSON decoding is reported
as a PARSE_ERROR via `send_error` with its request-id argument left `None`,
the connection keeps running, and framing resumes: every subsequent frame is
still decoded and dispatched normally. -/
theorem invalid_json_reports_parse_error (jsonOk : List Char → Bool)
    (frames : List Frame) (hwf : ∀ f ∈ frames, FrameOK f) :
    feedChunks jsonOk [streamOf frames]
      = ([], frames.map (fun f =>
          if jsonOk f.body then RpcOut.handled f.body
          else RpcOut.parseError none f.body)) := by
  have hfl : ([streamOf frames] : List (List Char)).flatten = streamOf frames := by simp
  have h := feedChunks_spec jsonOk frames hwf [streamOf frames]
    (by rw [hfl]; exact ⟨[], List.append_nil _⟩)
  rw [hfl, splitDone_full] at h
  exact h

def c8ProbeOk : List Char → Bool := fun b => decide (b ≠ "nope".data)

def c8wFrame1 : Frame := ⟨true, none, "4".data, "nope".data⟩

def c8wFrame2 : Frame := ⟨true, none, "4".data, "true".data⟩

def c8wBody1 : List Char := "nope".data

theorem invalid_json_reports_parse_error_witness :
    (∀ f ∈ [c8wFrame1, c8wFrame2], FrameOK f) ∧
    feedChunks c8ProbeOk [streamOf [c8wFrame1, c8wFrame2]]
      = ([], [RpcOut.parseError none c8wBody1, RpcOut.handled c8TrueBody]) := by
  have hwf : ∀ f ∈ [c8wFrame1, c8wFrame2], FrameOK f := by
    intro f hf
    rcases List.mem_cons.mp hf with rfl | hf2
    · exact ⟨by decide, by decide, by decide, by decide, by decide, trivial⟩
    rcases List.mem_cons.mp hf2 with rfl | hf3
    · exact ⟨by decide, by decide, by decide, by decide, by decide, trivial⟩
    · cases hf3
  refine ⟨hwf, ?_⟩
  rw [invalid_json_reports_parse_error c8ProbeOk [c8wFrame1, c8wFrame2] hwf]
  decide
